import Mathlib

/-!
# Verification of the zfbv framebuffer image viewer (src/main.c)

This file gives a shallow embedding of the core of `src/main.c`:

* an exact model of IEEE-754 binary32 (`float`) arithmetic, used by the
  scale state and by `Image_resize_linear`'s nearest-neighbour index
  computation (the C code is compiled with `FLT_EVAL_METHOD = 0`, i.e.
  every `float` operation rounds once to binary32, round-to-nearest,
  ties-to-even; the values arising in this program never overflow to
  infinity and never produce NaNs, so those cases are not modelled);
* the `Image` struct, `Image_resize_linear`;
* the `framebuffer` struct and `framebuffer_draw_image`;
* the interaction loop of `main` (scale state, keystroke handling,
  resample-on-change, redraw).

Floats are represented as a pair of integers `m, e` denoting the real
value `m * 2 ^ e`; every arithmetic operation re-rounds exactly the way
binary32 does, so all computations are executable by `decide`.
-/

/-- Fuel-driven base-2 logarithm on `ℕ` (`nlog2go fuel n = ⌊log₂ n⌋`
for `1 ≤ n ≤ fuel`); fuel makes the recursion structural. -/
def nlog2go : ℕ → ℕ → ℕ
  | 0, _ => 0
  | fuel + 1, n => if 2 ≤ n then nlog2go fuel (n / 2) + 1 else 0

/-- `⌊log₂ n⌋` for `n ≥ 1` (and `0` for `n = 0`). -/
def nlog2 (n : ℕ) : ℕ := nlog2go n n

/-- `⌊log₂ (n / d)⌋` for positive naturals `n, d`. -/
def qlog2 (n d : ℕ) : ℤ :=
  let a := nlog2 n
  let b := nlog2 d
  if b ≤ a then
    (if d * 2 ^ (a - b) ≤ n then ((a - b : ℕ) : ℤ) else ((a - b : ℕ) : ℤ) - 1)
  else
    (if d ≤ n * 2 ^ (b - a) then -((b - a : ℕ) : ℤ) else -((b - a : ℕ) : ℤ) - 1)

/-- A binary32 value, represented exactly as `m * 2 ^ e`.  Operations
below always produce the canonical rounded representation. -/
structure F32 where
  m : ℤ
  e : ℤ
  deriving DecidableEq, Repr

/-- The exact rational value of a represented float. -/
def F32.val (a : F32) : ℚ := (a.m : ℚ) * 2 ^ a.e

/-- Round the positive rational `n / d` (with `n, d ≥ 1`) to the nearest
binary32 value, ties to even; subnormal results use the fixed exponent
`-126`.  The mantissa is computed by integer division. -/
def rndPos (n d : ℕ) : F32 :=
  let E : ℤ := max (qlog2 n d) (-126)
  let s : ℤ := 23 - E
  let N : ℕ := if 0 ≤ s then n * 2 ^ s.toNat else n
  let D : ℕ := if 0 ≤ s then d else d * 2 ^ (-s).toNat
  let q : ℕ := N / D
  let r : ℕ := N % D
  let m : ℕ :=
    if 2 * r < D then q
    else if D < 2 * r then q + 1
    else if q % 2 = 0 then q else q + 1
  ⟨(m : ℤ), E - 23⟩

/-- Round the signed value `± (n / d) * 2 ^ off` to binary32.
`sgn = true` means nonnegative. -/
def rnd2 (sgn : Bool) (n d : ℕ) (off : ℤ) : F32 :=
  if n = 0 then ⟨0, 0⟩
  else
    let base := if 0 ≤ off then rndPos (n * 2 ^ off.toNat) d
                else rndPos n (d * 2 ^ (-off).toNat)
    if sgn then base else ⟨-base.m, base.e⟩

/-- C conversion `(float) x` of an `int`. -/
def i2f (x : ℤ) : F32 := rnd2 (decide (0 ≤ x)) x.natAbs 1 0

/-- C `float` multiplication (one binary32 rounding of the exact product). -/
def f32mul (a b : F32) : F32 :=
  rnd2 (decide (0 ≤ a.m * b.m)) (a.m * b.m).natAbs 1 (a.e + b.e)

/-- C `float` division (one binary32 rounding of the exact quotient);
division by zero is outside this model (it never happens on the paths
verified here) and is mapped to `0`. -/
def f32div (a b : F32) : F32 :=
  if b.m = 0 then ⟨0, 0⟩
  else rnd2 (decide (0 ≤ a.m * b.m)) a.m.natAbs b.m.natAbs (a.e - b.e)

/-- C `float` comparison `a < b` (comparison of the exact values). -/
def f32blt (a b : F32) : Bool :=
  let E := min a.e b.e
  decide (a.m * 2 ^ (a.e - E).toNat < b.m * 2 ^ (b.e - E).toNat)

/-- C `float` comparison `a == b` (comparison of the exact values). -/
def f32beq (a b : F32) : Bool :=
  let E := min a.e b.e
  decide (a.m * 2 ^ (a.e - E).toNat = b.m * 2 ^ (b.e - E).toNat)

/-- C cast `(int) a`: truncation of a `float` toward zero. -/
def truncF (a : F32) : ℤ :=
  if 0 ≤ a.e then a.m * 2 ^ a.e.toNat
  else Int.tdiv a.m (2 ^ (-a.e).toNat)

/-- Round-half-to-even of a rational to an integer (specification level). -/
def rheQ (y : ℚ) : ℤ :=
  if y - ⌊y⌋ < 1 / 2 then ⌊y⌋
  else if 1 / 2 < y - ⌊y⌋ then ⌊y⌋ + 1
  else if ⌊y⌋ % 2 = 0 then ⌊y⌋ else ⌊y⌋ + 1

/-- Specification-level binary32 rounding of a positive rational. -/
def rndQpos (q : ℚ) : ℚ :=
  let E : ℤ := max (qlog2 q.num.natAbs q.den) (-126)
  (rheQ (q * 2 ^ ((23 : ℤ) - E)) : ℚ) * 2 ^ (E - 23)

/-- Specification-level binary32 rounding of a rational. -/
def rndQ (q : ℚ) : ℚ :=
  if q < 0 then -rndQpos (-q) else if q = 0 then 0 else rndQpos q

/-- The binary exponent used by the rounding functions. -/
def bexp (q : ℚ) : ℤ := max (qlog2 q.num.natAbs q.den) (-126)

/-! ## The image type and `Image_resize_linear` (src/main.c:22-28, 298-332) -/

structure Image where
  width : ℤ
  height : ℤ
  bpp : ℤ
  stride : ℤ
  data : List ℕ
  deriving DecidableEq, Repr

/-- Read a byte of a pixel buffer at a C array index.  Reads outside the
allocation are undefined behaviour in C; the model returns 0 for them. -/
def getI (l : List ℕ) (i : ℤ) : ℕ := if 0 ≤ i then l.getD i.toNat 0 else 0

/-- Write a byte of a pixel buffer at a C array index.  Writes outside the
allocation are undefined behaviour in C; the model ignores them. -/
def setI (l : List ℕ) (i : ℤ) (v : ℕ) : List ℕ :=
  if 0 ≤ i then l.set i.toNat v else l

/-- Innermost loop of `Image_resize_linear` (src/main.c:325-327):
`for (c = 0; c < src->bpp; c++) resized->data[dst_index+c] = src->data[src_index+c]`. -/
def resize_c_loop (src : Image) (src_index dst_index : ℤ) (data : List ℕ) : List ℕ :=
  (List.range src.bpp.toNat).foldl
    (fun dataC (c : ℕ) => setI dataC (dst_index + (c : ℤ)) (getI src.data (src_index + (c : ℤ))))
    data

/-- Middle loop of `Image_resize_linear` (src/main.c:320-328), one output
row `y`, x running over `0 .. new_width-1`. -/
def resize_x_loop (src : Image) (x_ratio y_ratio : F32) (stride : ℤ) (new_width : ℤ)
    (y : ℕ) (data : List ℕ) : List ℕ :=
  (List.range new_width.toNat).foldl (fun dataX (x : ℕ) =>
    let src_x := truncF (f32mul (i2f (x : ℤ)) x_ratio)
    let src_y := truncF (f32mul (i2f (y : ℤ)) y_ratio)
    let src_index := src_y * src.stride + src_x * src.bpp
    let dst_index := (y : ℤ) * stride + (x : ℤ) * src.bpp
    resize_c_loop src src_index dst_index dataX)
    data

/-- Outer loop of `Image_resize_linear` (src/main.c:319-329). -/
def resize_y_loop (src : Image) (x_ratio y_ratio : F32) (stride : ℤ)
    (new_width new_height : ℤ) (data : List ℕ) : List ℕ :=
  (List.range new_height.toNat).foldl
    (fun dataY (y : ℕ) => resize_x_loop src x_ratio y_ratio stride new_width y dataY)
    data

/-- `Image_resize_linear` (src/main.c:298-332), success path: nearest
neighbour with `float` ratios `src->width / new_width`,
`src->height / new_height` and per-pixel truncated index
`(int)(x * x_ratio)`.  Allocation failure (`NULL` return) is modelled at
the call sites, not here; the `malloc`-ed output buffer is modelled as
zero-initialised (C leaves it indeterminate; the loops overwrite all of
it whenever the dimensions are positive). -/
def Image_resize_linear (src : Image) (new_width new_height : ℤ) : Image :=
  let stride := new_width * src.bpp
  let x_ratio := f32div (i2f src.width) (i2f new_width)
  let y_ratio := f32div (i2f src.height) (i2f new_height)
  let data0 := List.replicate (new_height * stride).toNat 0
  { width := new_width, height := new_height, bpp := src.bpp, stride := stride,
    data := resize_y_loop src x_ratio y_ratio stride new_width new_height data0 }

/-! ## The framebuffer and `framebuffer_draw_image` (src/main.c:12-19, 231-268) -/

/-- The framebuffer struct; `buffer` is the CPU-side shadow buffer
`fb->buffer`, modelled as a total byte function over C indices (the
device mapping `fb->fbp` is only ever written by `framebuffer_update`
and plays no role in the claims below). -/
structure framebuffer where
  width : ℤ
  height : ℤ
  bpp : ℤ
  buffer : ℤ → ℕ

/-- Single byte store into the shadow buffer. -/
def updB (f : ℤ → ℕ) (i : ℤ) (v : ℕ) : ℤ → ℕ := fun j => if j = i then v else f j

/-- Innermost loop of `framebuffer_draw_image` (src/main.c:263-265):
`for (c = 0; c < img->bpp; c++)
   fb->buffer[fb_idx + c] = img->data[img_idx + img->bpp - 1 - c]`. -/
def draw_c_loop (img : Image) (img_idx fb_idx : ℤ) (buf : ℤ → ℕ) : ℤ → ℕ :=
  (List.range img.bpp.toNat).foldl
    (fun bufC (c : ℕ) => updB bufC (fb_idx + (c : ℤ)) (getI img.data (img_idx + img.bpp - 1 - (c : ℤ))))
    buf

/-- Middle loop of `framebuffer_draw_image` (src/main.c:257-266), one
device row, `x` running over the clipped `[screen_x_start, screen_x_end)`. -/
def draw_x_loop (fb : framebuffer) (img : Image) (x_offset : ℤ)
    (fb_row_offset img_row_offset : ℤ) (xs xe : ℤ) (buf : ℤ → ℕ) : ℤ → ℕ :=
  (List.range (xe - xs).toNat).foldl (fun bufX (j : ℕ) =>
    let x := xs + (j : ℤ)
    let img_x := x - x_offset
    let fb_idx := fb_row_offset + x * fb.bpp
    let img_idx := img_row_offset + img_x * img.bpp
    draw_c_loop img img_idx fb_idx bufX)
    buf

/-- Outer loop of `framebuffer_draw_image` (src/main.c:251-267). -/
def draw_y_loop (fb : framebuffer) (img : Image) (x_offset y_offset : ℤ)
    (xs xe ys ye : ℤ) (buf : ℤ → ℕ) : ℤ → ℕ :=
  (List.range (ye - ys).toNat).foldl (fun bufY (i : ℕ) =>
    let y := ys + (i : ℤ)
    let fb_row_offset := y * fb.width * fb.bpp
    let img_y := y - y_offset
    let img_row_offset := img_y * img.width * img.bpp
    draw_x_loop fb img x_offset fb_row_offset img_row_offset xs xe bufY)
    buf

/-- `framebuffer_draw_image` (src/main.c:231-268): clip the image's
placed bounds against the device bounds, then copy channel-reversed
pixel bytes into the shadow buffer. -/
def framebuffer_draw_image (fb : framebuffer) (x_offset y_offset : ℤ) (img : Image) :
    framebuffer :=
  let screen_x_start := if x_offset < 0 then 0 else x_offset
  let screen_y_start := if y_offset < 0 then 0 else y_offset
  let screen_x_end := if fb.width < x_offset + img.width then fb.width
                      else x_offset + img.width
  let screen_y_end := if fb.height < y_offset + img.height then fb.height
                      else y_offset + img.height
  if screen_x_end ≤ screen_x_start ∨ screen_y_end ≤ screen_y_start then fb
  else if fb.bpp < 3 then fb
  else
    { fb with buffer := (draw_y_loop fb img x_offset y_offset
        screen_x_start screen_x_end screen_y_start screen_y_end fb.buffer) }

/-! ## The interaction loop of `main` (src/main.c:47-149) -/

/-- The binary32 literal `0.1f`. -/
def c0_1 : F32 := rndPos 1 10

/-- The binary32 literal `1.2f`. -/
def c1_2 : F32 := rndPos 6 5

/-- The binary32 literal `0.8f`. -/
def c0_8 : F32 := rndPos 4 5

/-- The binary32 literal `5.0f` (exact). -/
def c5_0 : F32 := i2f 5

/-- Keystroke handling (src/main.c:108-119), scale update only. -/
def stepScale (dflt : F32) (scale : F32) (ch : Char) : F32 :=
  if ch = 'r' then dflt
  else if ch = '+' then f32mul scale c1_2
  else if ch = '-' then f32div scale c1_2
  else scale

/-- The clamp at src/main.c:124-125:
`scale = scale < 0.1f ? 0.1f : scale; scale = scale > 5.0f ? 5.0f : scale;` -/
def clampScale (s : F32) : F32 :=
  let s1 := if f32blt s c0_1 then c0_1 else s
  if f32blt c5_0 s1 then c5_0 else s1

/-- Loop state: `scale`, `prev_scale`, and the currently displayed
resized image (src/main.c:72-84). -/
structure LoopSt where
  scale : F32
  prevScale : F32
  resized : Image
  deriving DecidableEq, Repr

/-- `scale_w`, `scale_h`, `min`, `* 0.8f` of src/main.c:68-72. -/
def initScale (fbWidth fbHeight : ℤ) (img : Image) : F32 :=
  let scale_w := f32div (i2f fbWidth) (i2f img.width)
  let scale_h := f32div (i2f fbHeight) (i2f img.height)
  let scale := if f32blt scale_w scale_h then scale_w else scale_h
  f32mul scale c0_8

/-- The loop state just before the first iteration (src/main.c:74-84),
assuming the initial resize allocation succeeded (otherwise the program
exits before the loop). -/
def initState (fbWidth fbHeight : ℤ) (img : Image) : LoopSt :=
  let dflt := initScale fbWidth fbHeight img
  let nw := truncF (f32mul (i2f img.width) dflt)
  let nh := truncF (f32mul (i2f img.height) dflt)
  ⟨dflt, dflt, Image_resize_linear img nw nh⟩

/-- One pass through the input-handling tail of the loop body
(src/main.c:106-138): `none` means `q` (break).  Otherwise returns the
new state together with `some (w, h)` when `Image_resize_linear` was
called with target dimensions `w × h` (`allocOk = false` models the
`new_resized == NULL` branch, which keeps the old image), and `none`
when the `scale == prev_scale` skip (`continue`) was taken. -/
def stepLoop (img : Image) (dflt : F32) (s : LoopSt) (ch : Char) (allocOk : Bool) :
    Option (LoopSt × Option (ℤ × ℤ)) :=
  if ch = 'q' then none
  else
    let sc := clampScale (stepScale dflt s.scale ch)
    if f32beq sc s.prevScale then some ({ s with scale := sc }, none)
    else
      let nw := truncF (f32mul (i2f img.width) sc)
      let nh := truncF (f32mul (i2f img.height) sc)
      some (⟨sc, sc, if allocOk then Image_resize_linear img nw nh else s.resized⟩,
        some (nw, nh))

/-- Observable events of the interaction loop. -/
inductive Ev where
  | draw (w h : ℤ) (scale : F32)
  | key (ch : Char)
  | resizeCall (w h : ℤ) (ok : Bool)
  deriving DecidableEq, Repr

/-- Event trace of the `while (1)` loop (src/main.c:97-139) on a finite
keystroke sequence: each iteration clears, draws and flushes the current
image (`Ev.draw`), blocks on `getchar` (`Ev.key`), and then handles the
key; the trace ends when `q` is read or when the supplied keystrokes run
out (the program would block on `getchar`). -/
def loopRun (img : Image) (dflt : F32) : LoopSt → List (Char × Bool) → List Ev
  | _, [] => []
  | s, (ch, ok) :: rest =>
    Ev.draw s.resized.width s.resized.height s.scale :: Ev.key ch ::
      (match stepLoop img dflt s ch ok with
       | none => []
       | some (s', none) => loopRun img dflt s' rest
       | some (s', some (nw, nh)) => Ev.resizeCall nw nh ok :: loopRun img dflt s' rest)

/-- State after a finite keystroke sequence (`none` once `q` was read). -/
def runSteps (img : Image) (dflt : F32) : LoopSt → List (Char × Bool) → Option LoopSt
  | s, [] => some s
  | s, (ch, ok) :: rest =>
    match stepLoop img dflt s ch ok with
    | none => none
    | some (s', _) => runSteps img dflt s' rest

/-- Device and image used by the witnesses below: a 4×4, 3-bytes-per-pixel
framebuffer whose shadow buffer holds `7` everywhere, and a single
pure-red pixel image. -/
def fbW : framebuffer := ⟨4, 4, 3, fun _ => 7⟩

def imgRed : Image := ⟨1, 1, 3, 3, [255, 0, 0]⟩

/-- Test images for the loop counterexamples and witnesses. -/
def img4 : Image := ⟨4, 4, 3, 12, List.replicate 48 7⟩

def img9 : Image := ⟨9, 9, 3, 27, List.replicate 243 0⟩

def img12 : Image := ⟨12, 12, 3, 36, List.replicate 432 1⟩

def src26 : Image := ⟨26, 1, 3, 78, List.range 78⟩

def srcBig : Image := ⟨16777220, 1, 3, 50331660, List.replicate 50331660 7⟩

section LogLemmas

/-- `nlog2go` meets the `⌊log₂⌋` specification when given enough fuel. -/
theorem nlog2go_spec : ∀ (fuel n : ℕ), 1 ≤ n → n ≤ fuel →
    2 ^ nlog2go fuel n ≤ n ∧ n < 2 ^ (nlog2go fuel n + 1) := by
  intro fuel
  induction fuel with
  | zero => intro n h1 h2; omega
  | succ f ih =>
    intro n h1 h2
    rw [nlog2go]
    by_cases h : 2 ≤ n
    · have hrec := ih (n / 2) (by omega) (by omega)
      simp only [if_pos h]
      rcases hrec with ⟨hl, hr⟩
      constructor
      · calc 2 ^ (nlog2go f (n / 2) + 1) = 2 * 2 ^ nlog2go f (n / 2) := by ring
        _ ≤ 2 * (n / 2) := by omega
        _ ≤ n := by omega
      · have : n / 2 + 1 ≤ 2 ^ (nlog2go f (n / 2) + 1) := hr
        calc n < 2 * (n / 2) + 2 := by omega
        _ ≤ 2 * 2 ^ (nlog2go f (n / 2) + 1) := by omega
        _ = 2 ^ (nlog2go f (n / 2) + 1 + 1) := by ring
    · simp only [if_neg h]
      omega

/-- `nlog2` meets the `⌊log₂⌋` specification. -/
theorem nlog2_spec (n : ℕ) (h1 : 1 ≤ n) :
    2 ^ nlog2 n ≤ n ∧ n < 2 ^ (nlog2 n + 1) :=
  nlog2go_spec n n h1 le_rfl

end LogLemmas

section QLogLemmas

theorem zpow_le_div_iff_of_pos {n d : ℕ} (hd : 0 < d) (e : ℤ) :
    (2 : ℚ) ^ e ≤ (n : ℚ) / d ↔ (2 : ℚ) ^ e * d ≤ n := by
  rw [le_div_iff (by exact_mod_cast hd)]

theorem div_lt_zpow_iff_of_pos {n d : ℕ} (hd : 0 < d) (e : ℤ) :
    (n : ℚ) / d < (2 : ℚ) ^ e ↔ (n : ℚ) < (2 : ℚ) ^ e * d := by
  rw [div_lt_iff (by exact_mod_cast hd)]

/-- `qlog2` meets the `⌊log₂⌋` specification on positive fractions. -/
theorem qlog2_spec (n d : ℕ) (h1 : 1 ≤ n) (h2 : 1 ≤ d) :
    (2 : ℚ) ^ qlog2 n d ≤ (n : ℚ) / d ∧ (n : ℚ) / d < (2 : ℚ) ^ (qlog2 n d + 1) := by
  obtain ⟨han, han2⟩ := nlog2_spec n h1
  obtain ⟨hdn, hdn2⟩ := nlog2_spec d h2
  set a := nlog2 n with ha
  set b := nlog2 d with hb
  have hd0 : (0 : ℚ) < d := by exact_mod_cast h2
  simp only [qlog2]
  by_cases hba : b ≤ a
  · rw [if_pos hba]
    by_cases hc : d * 2 ^ (a - b) ≤ n
    · rw [if_pos hc]
      constructor
      · rw [zpow_le_div_iff_of_pos h2, zpow_natCast]
        have key' : ((d * 2 ^ (a - b) : ℕ) : ℚ) ≤ (n : ℚ) := by exact_mod_cast hc
        push_cast at key'
        linarith
      · rw [div_lt_zpow_iff_of_pos h2]
        have key : n < 2 ^ (a - b + 1) * d := by
          calc n < 2 ^ (a + 1) := han2
          _ = 2 ^ (a - b + 1) * 2 ^ b := by rw [← pow_add]; congr 1; omega
          _ ≤ 2 ^ (a - b + 1) * d := Nat.mul_le_mul_left _ hdn
        calc (n : ℚ) < ((2 ^ (a - b + 1) * d : ℕ) : ℚ) := by exact_mod_cast key
        _ = (2 : ℚ) ^ (((a - b : ℕ) : ℤ) + 1) * d := by
            push_cast
            rw [← zpow_natCast (2 : ℚ) (a - b + 1)]
            push_cast
            ring_nf
    · rw [if_neg hc]
      constructor
      · rw [zpow_le_div_iff_of_pos h2]
        have key : 2 ^ b * (2 ^ (a - b) * d) ≤ 2 ^ b * (2 * n) := by
          have h1' : 2 ^ (a - b) * d < 2 ^ (a - b) * 2 ^ (b + 1) :=
            (Nat.mul_lt_mul_left (Nat.pos_pow_of_pos _ (by norm_num))).mpr hdn2
          have h2' : 2 ^ (a - b) * 2 ^ (b + 1) = 2 * 2 ^ a := by
            rw [← pow_add]; rw [← pow_succ']; congr 1; omega
          have h3' : 2 ^ a ≤ n := han
          calc 2 ^ b * (2 ^ (a - b) * d) ≤ 2 ^ b * (2 * 2 ^ a) := by
                apply Nat.mul_le_mul_left; omega
          _ ≤ 2 ^ b * (2 * n) := by apply Nat.mul_le_mul_left; omega
        have key2 : 2 ^ (a - b) * d ≤ 2 * n := Nat.le_of_mul_le_mul_left key (Nat.pos_pow_of_pos _ (by norm_num))
        have : ((2 ^ (a - b) * d : ℕ) : ℚ) ≤ ((2 * n : ℕ) : ℚ) := by exact_mod_cast key2
        push_cast at this
        have htwo : (0 : ℚ) < 2 := by norm_num
        rw [zpow_sub₀ (by norm_num), zpow_one, zpow_natCast]
        rw [div_mul_eq_mul_div, div_le_iff htwo]
        linarith
      · rw [div_lt_zpow_iff_of_pos h2]
        have : (n : ℚ) < ((d * 2 ^ (a - b) : ℕ) : ℚ) := by exact_mod_cast (by omega : n < d * 2 ^ (a - b))
        push_cast at this
        rw [sub_add_cancel, zpow_natCast]
        linarith
  · rw [if_neg hba]
    have hab : a < b := by omega
    by_cases hc : d ≤ n * 2 ^ (b - a)
    · rw [if_pos hc]
      constructor
      · rw [zpow_le_div_iff_of_pos h2, zpow_neg, zpow_natCast]
        rw [inv_mul_le_iff (by positivity)]
        calc (d : ℚ) ≤ ((n * 2 ^ (b - a) : ℕ) : ℚ) := by exact_mod_cast hc
        _ = (n : ℚ) * 2 ^ (b - a) := by push_cast; ring
        _ = 2 ^ (b - a) * n := by ring
      · rw [div_lt_zpow_iff_of_pos h2]
        have key : n * 2 ^ (b - a) < 2 * d := by
          calc n * 2 ^ (b - a) < 2 ^ (a + 1) * 2 ^ (b - a) := by
                exact (Nat.mul_lt_mul_right (Nat.pos_pow_of_pos _ (by norm_num))).mpr han2
          _ = 2 * 2 ^ b := by rw [← pow_add]; rw [← pow_succ']; congr 1; omega
          _ ≤ 2 * d := by omega
        have key' : (n : ℚ) * 2 ^ (b - a) < 2 * d := by exact_mod_cast key
        rw [zpow_add₀ (by norm_num : (2:ℚ) ≠ 0), zpow_neg, zpow_natCast, zpow_one]
        rw [inv_mul_eq_div, div_mul_eq_mul_div, lt_div_iff (by positivity)]
        linarith
    · rw [if_neg hc]
      constructor
      · rw [zpow_le_div_iff_of_pos h2]
        have key : d ≤ n * 2 ^ (b - a + 1) := by
          calc d ≤ 2 ^ (b + 1) := by omega
          _ = 2 ^ a * 2 ^ (b - a + 1) := by rw [← pow_add]; congr 1; omega
          _ ≤ n * 2 ^ (b - a + 1) := Nat.mul_le_mul_right _ han
        have key' : (d : ℚ) ≤ (n : ℚ) * 2 ^ (b - a + 1) := by exact_mod_cast key
        have hexp : -((b - a : ℕ) : ℤ) - 1 = -(((b - a + 1 : ℕ) : ℤ)) := by push_cast; ring
        rw [hexp, zpow_neg, zpow_natCast, inv_mul_le_iff (by positivity)]
        linarith
      · rw [div_lt_zpow_iff_of_pos h2]
        have key' : (n : ℚ) * 2 ^ (b - a) < d := by
          exact_mod_cast (by omega : n * 2 ^ (b - a) < d)
        have hexp : -((b - a : ℕ) : ℤ) - 1 + 1 = -(((b - a : ℕ) : ℤ)) := by ring
        rw [hexp, zpow_neg, zpow_natCast, inv_mul_eq_div, lt_div_iff (by positivity)]
        linarith

/-- Uniqueness of the binary exponent: any two integers satisfying the
`⌊log₂⌋` bracketing of the same positive rational agree. -/
theorem log2_uniq {q : ℚ} {e f : ℤ} (he1 : (2:ℚ)^e ≤ q) (he2 : q < 2^(e+1))
    (hf1 : (2:ℚ)^f ≤ q) (hf2 : q < 2^(f+1)) : e = f := by
  by_contra hne
  rcases lt_or_gt_of_ne hne with h | h
  · have : (2:ℚ)^(e+1) ≤ 2^f := by
      apply zpow_le_zpow_right₀ (by norm_num) (by omega)
    linarith
  · have : (2:ℚ)^(f+1) ≤ 2^e := by
      apply zpow_le_zpow_right₀ (by norm_num) (by omega)
    linarith

end QLogLemmas

section RndChar

/-- Fractional part of `N / D` as a fraction of the Euclidean remainder. -/
theorem frac_natCast_div (N D : ℕ) (hD : 0 < D) :
    (N : ℚ) / D - ((N / D : ℕ) : ℚ) = ((N % D : ℕ) : ℚ) / D := by
  have hmod : D * (N / D) + N % D = N := Nat.div_add_mod N D
  have hD' : (D : ℚ) ≠ 0 := by positivity
  have hcast : ((D * (N / D) + N % D : ℕ) : ℚ) = (N : ℚ) := by exact_mod_cast hmod
  push_cast at hcast
  field_simp
  linarith

/-- `rheQ` on a fraction of naturals equals the integer rounding used in
`rndPos`. -/
theorem rheQ_natDiv (N D : ℕ) (hD : 0 < D) :
    rheQ ((N : ℚ) / D) =
      (if 2 * (N % D) < D then ((N / D : ℕ) : ℤ)
       else if D < 2 * (N % D) then ((N / D : ℕ) : ℤ) + 1
       else if (N / D) % 2 = 0 then ((N / D : ℕ) : ℤ) else ((N / D : ℕ) : ℤ) + 1) := by
  have hfl : ⌊(N : ℚ) / D⌋ = ((N / D : ℕ) : ℤ) := by
    rw [Rat.floor_natCast_div_natCast]
    exact_mod_cast rfl
  have hfr : (N : ℚ) / D - (((N / D : ℕ) : ℤ) : ℚ) = ((N % D : ℕ) : ℚ) / D := by
    push_cast
    push_cast at hfl
    exact frac_natCast_div N D hD
  have hD0 : (0 : ℚ) < D := by exact_mod_cast hD
  have hlt : ((N % D : ℕ) : ℚ) / D < 1 / 2 ↔ 2 * (N % D) < D := by
    rw [div_lt_div_iff hD0 (by norm_num)]
    have h2 : ((N % D : ℕ) : ℚ) * 2 = ((2 * (N % D) : ℕ) : ℚ) := by push_cast; ring
    rw [h2, one_mul]
    exact Nat.cast_lt
  have hgt : (1 : ℚ) / 2 < ((N % D : ℕ) : ℚ) / D ↔ D < 2 * (N % D) := by
    rw [div_lt_div_iff (by norm_num) hD0]
    have h2 : ((N % D : ℕ) : ℚ) * 2 = ((2 * (N % D) : ℕ) : ℚ) := by push_cast; ring
    rw [h2, one_mul]
    exact Nat.cast_lt
  have hpar : ((N / D : ℕ) : ℤ) % 2 = 0 ↔ (N / D) % 2 = 0 := by omega
  rw [rheQ, hfl, hfr]
  split_ifs <;> (try simp only [hlt, hgt, hpar] at *) <;> omega

/-- `rndPos` computes exactly the specification-level rounding formula. -/
theorem rndPos_eq (n d : ℕ) (h2 : 1 ≤ d) :
    rndPos n d =
      ⟨rheQ ((n : ℚ) / d * 2 ^ ((23 : ℤ) - max (qlog2 n d) (-126))),
       max (qlog2 n d) (-126) - 23⟩ := by
  simp only [rndPos]
  set E : ℤ := max (qlog2 n d) (-126) with hE
  set s : ℤ := 23 - E with hs
  by_cases hs0 : 0 ≤ s
  · simp only [if_pos hs0]
    have harg : ((n * 2 ^ s.toNat : ℕ) : ℚ) / d = (n : ℚ) / d * 2 ^ s := by
      push_cast
      rw [← zpow_natCast (2 : ℚ) s.toNat, Int.toNat_of_nonneg hs0]
      ring
    have hch := rheQ_natDiv (n * 2 ^ s.toNat) d (by omega)
    rw [harg] at hch
    rw [hch]
    congr 1
    split_ifs <;> push_cast <;> ring
  · simp only [if_neg hs0]
    have harg : ((n : ℕ) : ℚ) / ((d * 2 ^ (-s).toNat : ℕ) : ℚ) = (n : ℚ) / d * 2 ^ s := by
      have hzp : (2 : ℚ) ^ s = ((2 : ℚ) ^ (-s).toNat)⁻¹ := by
        rw [← zpow_natCast (2 : ℚ) (-s).toNat, Int.toNat_of_nonneg (by omega : (0:ℤ) ≤ -s),
          ← zpow_neg, neg_neg]
      push_cast
      rw [hzp, division_def, division_def, mul_inv]
      ring
    have hch := rheQ_natDiv n (d * 2 ^ (-s).toNat) (by positivity)
    rw [harg] at hch
    rw [hch]
    congr 1
    split_ifs <;> push_cast <;> ring

end RndChar

section RheLemmas

theorem rheQ_intCast (z : ℤ) : rheQ (z : ℚ) = z := by
  rw [rheQ, Int.floor_intCast]
  simp

theorem rheQ_floor_le (y : ℚ) : ⌊y⌋ ≤ rheQ y := by
  rw [rheQ]; split_ifs <;> omega

theorem rheQ_le_floor_add_one (y : ℚ) : rheQ y ≤ ⌊y⌋ + 1 := by
  rw [rheQ]; split_ifs <;> omega

theorem rheQ_le (y : ℚ) : (rheQ y : ℚ) ≤ y + 1 / 2 := by
  have h1 := Int.floor_le y
  have h2 := Int.lt_floor_add_one y
  rw [rheQ]
  split_ifs with hc1 hc2 <;> push_cast <;> linarith

theorem rheQ_ge (y : ℚ) : y - 1 / 2 ≤ (rheQ y : ℚ) := by
  have h1 := Int.floor_le y
  have h2 := Int.lt_floor_add_one y
  rw [rheQ]
  split_ifs with hc1 hc2 <;> push_cast <;> linarith

theorem rheQ_mono {y z : ℚ} (h : y ≤ z) : rheQ y ≤ rheQ z := by
  rcases lt_or_eq_of_le (Int.floor_le_floor h) with hf | hf
  · have h1 := rheQ_le_floor_add_one y
    have h2 := rheQ_floor_le z
    omega
  · rw [rheQ, rheQ, hf]
    have hfr : y - (⌊z⌋ : ℚ) ≤ z - (⌊z⌋ : ℚ) := by linarith
    split_ifs <;> first | omega | (exfalso; linarith)

theorem rheQ_nonneg {y : ℚ} (h : 0 ≤ y) : 0 ≤ rheQ y := by
  have := rheQ_floor_le y
  have : (0 : ℤ) ≤ ⌊y⌋ := Int.floor_nonneg.mpr h
  omega

end RheLemmas

section RndQLemmas

theorem rndQpos_def (q : ℚ) :
    rndQpos q = (rheQ (q * 2 ^ ((23 : ℤ) - bexp q)) : ℚ) * 2 ^ (bexp q - 23) := rfl

theorem num_natAbs_div_den {q : ℚ} (hq : 0 < q) :
    ((q.num.natAbs : ℚ)) / (q.den : ℚ) = q := by
  have hnum : (0 : ℤ) ≤ q.num := le_of_lt (Rat.num_pos.mpr hq)
  have h1 : ((q.num.natAbs : ℕ) : ℚ) = ((q.num : ℤ) : ℚ) := by
    rw [← Int.cast_natCast, Int.natAbs_of_nonneg hnum]
  rw [h1]
  exact Rat.num_div_den q

/-- Bracketing of a positive rational by its computed binary exponent. -/
theorem qlog2_q_spec {q : ℚ} (hq : 0 < q) :
    (2 : ℚ) ^ qlog2 q.num.natAbs q.den ≤ q ∧
      q < (2 : ℚ) ^ (qlog2 q.num.natAbs q.den + 1) := by
  have hn : 1 ≤ q.num.natAbs := by
    have := Rat.num_pos.mpr hq
    omega
  have hd : 1 ≤ q.den := q.pos
  have := qlog2_spec q.num.natAbs q.den hn hd
  rwa [num_natAbs_div_den hq] at this

theorem bexp_le (q : ℚ) (hq : 0 < q) : q < (2 : ℚ) ^ (bexp q + 1) := by
  obtain ⟨h1, h2⟩ := qlog2_q_spec hq
  calc q < (2 : ℚ) ^ (qlog2 q.num.natAbs q.den + 1) := h2
  _ ≤ (2 : ℚ) ^ (bexp q + 1) := by
      apply zpow_le_zpow_right₀ (by norm_num)
      have : qlog2 q.num.natAbs q.den ≤ bexp q := le_max_left _ _
      omega

theorem bexp_ge_of_normal {q : ℚ} (h : (2 : ℚ) ^ (-126 : ℤ) ≤ q) :
    (2 : ℚ) ^ bexp q ≤ q ∧ bexp q = qlog2 q.num.natAbs q.den := by
  have hq : 0 < q := lt_of_lt_of_le (by positivity) h
  obtain ⟨h1, h2⟩ := qlog2_q_spec hq
  have hln : -126 ≤ qlog2 q.num.natAbs q.den := by
    by_contra hlt
    push_neg at hlt
    have : qlog2 q.num.natAbs q.den + 1 ≤ -126 := by omega
    have : (2 : ℚ) ^ (qlog2 q.num.natAbs q.den + 1) ≤ (2 : ℚ) ^ (-126 : ℤ) :=
      zpow_le_zpow_right₀ (by norm_num) this
    linarith
  have hbe : bexp q = qlog2 q.num.natAbs q.den := by
    rw [bexp]; omega
  rw [hbe]
  exact ⟨h1, rfl⟩

/-- Error bound: one rounding changes a positive value by at most
`2 ^ (bexp q - 24)` (half an ulp). -/
theorem rndQpos_err (q : ℚ) :
    |rndQpos q - q| ≤ (2 : ℚ) ^ (bexp q - 24) := by
  rw [rndQpos_def]
  set E := bexp q with hE
  set y := q * 2 ^ ((23 : ℤ) - E) with hy
  have hq : q = y * 2 ^ (E - 23) := by
    rw [hy, mul_assoc, ← zpow_add₀ (by norm_num : (2:ℚ) ≠ 0)]
    norm_num
  have h1 := rheQ_le y
  have h2 := rheQ_ge y
  have hpow : (0 : ℚ) < 2 ^ (E - 23) := by positivity
  have hhalf : (1 / 2 : ℚ) * 2 ^ (E - 23) = 2 ^ (E - 24) := by
    have h12 : (1 / 2 : ℚ) = 2 ^ (-1 : ℤ) := by norm_num
    rw [h12, ← zpow_add₀ (by norm_num : (2:ℚ) ≠ 0)]
    congr 1 <;> omega
  rw [abs_le]
  constructor
  · rw [hq]
    have l1 := mul_le_mul_of_nonneg_right h2 (le_of_lt hpow)
    rw [sub_mul] at l1
    linarith
  · rw [hq]
    have l1 := mul_le_mul_of_nonneg_right h1 (le_of_lt hpow)
    rw [add_mul] at l1
    linarith

/-- Relative error bound on the normal range. -/
theorem rndQpos_rel {q : ℚ} (h : (2 : ℚ) ^ (-126 : ℤ) ≤ q) :
    q * (1 - 2 ^ (-24 : ℤ)) ≤ rndQpos q ∧ rndQpos q ≤ q * (1 + 2 ^ (-24 : ℤ)) := by
  obtain ⟨hb, _⟩ := bexp_ge_of_normal h
  have herr := rndQpos_err q
  rw [abs_le] at herr
  have hkey : (2 : ℚ) ^ (bexp q - 24) ≤ q * 2 ^ (-24 : ℤ) := by
    have hsplit : (2 : ℚ) ^ (bexp q - 24) = 2 ^ bexp q * 2 ^ (-24 : ℤ) := by
      rw [← zpow_add₀ (by norm_num : (2:ℚ) ≠ 0)]
      congr 1 <;> omega
    rw [hsplit]
    exact mul_le_mul_of_nonneg_right hb (by positivity)
  constructor
  · nlinarith
  · nlinarith

end RndQLemmas

section RndQMore

theorem rndQpos_val_decomp (q : ℚ) :
    q * 2 ^ ((23 : ℤ) - bexp q) * 2 ^ (bexp q - 23) = q := by
  rw [mul_assoc, ← zpow_add₀ (by norm_num : (2:ℚ) ≠ 0)]
  have h0 : (23 : ℤ) - bexp q + (bexp q - 23) = 0 := by ring
  rw [h0, zpow_zero, mul_one]

/-- Values representable with at most 24 mantissa bits round to themselves. -/
theorem rndQpos_exact {q : ℚ} (M : ℕ) (k : ℤ) (hM1 : 1 ≤ M) (hM2 : M ≤ 2 ^ 24)
    (hrep : q = (M : ℚ) * 2 ^ k) (hnorm : (2 : ℚ) ^ (-126 : ℤ) ≤ q) :
    rndQpos q = q := by
  have hq : 0 < q := lt_of_lt_of_le (by positivity) hnorm
  obtain ⟨hb, hbe⟩ := bexp_ge_of_normal hnorm
  have hub : q < 2 ^ (bexp q + 1) := bexp_le q hq
  set E := bexp q with hE
  set y := q * 2 ^ ((23 : ℤ) - E) with hy
  have hy1 : (2 : ℚ) ^ (23 : ℤ) ≤ y := by
    have hsplit : (2 : ℚ) ^ (23 : ℤ) = 2 ^ E * 2 ^ ((23:ℤ) - E) := by
      rw [← zpow_add₀ (by norm_num : (2:ℚ) ≠ 0)]
      congr 1 <;> omega
    rw [hy, hsplit]
    exact mul_le_mul_of_nonneg_right hb (by positivity)
  have hyM : y = (M : ℚ) * 2 ^ (k + 23 - E) := by
    rw [hy, hrep, mul_assoc, ← zpow_add₀ (by norm_num : (2:ℚ) ≠ 0)]
    congr 1
    ring
  obtain ⟨Y, hY⟩ : ∃ Y : ℤ, (Y : ℚ) = y := by
    by_cases hj : 0 ≤ k + 23 - E
    · refine ⟨(M : ℤ) * 2 ^ (k + 23 - E).toNat, ?_⟩
      rw [hyM]
      push_cast
      rw [← zpow_natCast (2 : ℚ) (k + 23 - E).toNat, Int.toNat_of_nonneg hj]
    · -- boundary case: the mantissa bound forces `y = 2 ^ 23` exactly
      refine ⟨2 ^ 23, ?_⟩
      push_neg at hj
      have hM' : (M : ℚ) ≤ 2 ^ (24 : ℤ) := by exact_mod_cast hM2
      have hstep : (2 : ℚ) ^ (k + 23 - E) ≤ 2 ^ (-1 : ℤ) :=
        zpow_le_zpow_right₀ (by norm_num) (by omega)
      have hupper : y ≤ 2 ^ (24 : ℤ) * 2 ^ (-1 : ℤ) := by
        rw [hyM]
        exact mul_le_mul hM' hstep (by positivity) (by positivity)
      have h23 : (2 : ℚ) ^ (24 : ℤ) * 2 ^ (-1 : ℤ) = 2 ^ (23 : ℤ) := by
        rw [← zpow_add₀ (by norm_num : (2:ℚ) ≠ 0)]
        congr 1 <;> omega
      have hyeq : y = 2 ^ (23 : ℤ) := le_antisymm (h23 ▸ hupper) hy1
      rw [hyeq]
      norm_num
  have hflr : rheQ y = Y := by rw [← hY, rheQ_intCast]
  rw [rndQpos_def, ← hE, ← hy, hflr, hY, hy, hE]
  exact rndQpos_val_decomp q

theorem rndQpos_nonneg {q : ℚ} (hq : 0 < q) : 0 ≤ rndQpos q := by
  rw [rndQpos_def]
  have hy : (0 : ℚ) ≤ q * 2 ^ ((23:ℤ) - bexp q) := by positivity
  have h1 : (0 : ℤ) ≤ rheQ (q * 2 ^ ((23:ℤ) - bexp q)) := rheQ_nonneg hy
  have h2 : (0 : ℚ) ≤ (rheQ (q * 2 ^ ((23:ℤ) - bexp q)) : ℚ) := by exact_mod_cast h1
  positivity

theorem bexp_mono {q r : ℚ} (hq : 0 < q) (hqr : q ≤ r) : bexp q ≤ bexp r := by
  have hr : 0 < r := lt_of_lt_of_le hq hqr
  obtain ⟨hq1, hq2⟩ := qlog2_q_spec hq
  obtain ⟨hr1, hr2⟩ := qlog2_q_spec hr
  have hcmp : (2:ℚ) ^ qlog2 q.num.natAbs q.den < 2 ^ (qlog2 r.num.natAbs r.den + 1) := by
    calc (2:ℚ) ^ qlog2 q.num.natAbs q.den ≤ q := hq1
    _ ≤ r := hqr
    _ < 2 ^ (qlog2 r.num.natAbs r.den + 1) := hr2
  have := (zpow_lt_zpow_iff_right₀ (by norm_num : (1:ℚ) < 2)).mp hcmp
  rw [bexp, bexp]
  omega

/-- Monotonicity of binary32 rounding on positive values. -/
theorem rndQpos_mono {q r : ℚ} (hq : 0 < q) (hqr : q ≤ r) :
    rndQpos q ≤ rndQpos r := by
  have hr : 0 < r := lt_of_lt_of_le hq hqr
  have hEm : bexp q ≤ bexp r := bexp_mono hq hqr
  rcases eq_or_lt_of_le hEm with hEeq | hElt
  · -- same exponent: the scaled arguments compare, `rheQ` is monotone
    rw [rndQpos_def, rndQpos_def, ← hEeq]
    have harg : q * 2 ^ ((23:ℤ) - bexp q) ≤ r * 2 ^ ((23:ℤ) - bexp q) :=
      mul_le_mul_of_nonneg_right hqr (by positivity)
    have hm := rheQ_mono harg
    have hm' : ((rheQ (q * 2 ^ ((23:ℤ) - bexp q)) : ℤ) : ℚ) ≤
        ((rheQ (r * 2 ^ ((23:ℤ) - bexp q)) : ℤ) : ℚ) := by exact_mod_cast hm
    exact mul_le_mul_of_nonneg_right hm' (by positivity)
  · -- strictly larger exponent: go through the powers of two at the boundary
    have hup : rndQpos q ≤ 2 ^ (bexp q + 1) := by
      rw [rndQpos_def]
      have hqlt : q < 2 ^ (bexp q + 1) := bexp_le q hq
      have hylt : q * 2 ^ ((23:ℤ) - bexp q) < 2 ^ (24 : ℤ) := by
        have hmul : q * 2 ^ ((23:ℤ) - bexp q) < 2 ^ (bexp q + 1) * 2 ^ ((23:ℤ) - bexp q) :=
          mul_lt_mul_of_pos_right hqlt (by positivity)
        have hexp : (2:ℚ) ^ (bexp q + 1) * 2 ^ ((23:ℤ) - bexp q) = 2 ^ (24 : ℤ) := by
          rw [← zpow_add₀ (by norm_num : (2:ℚ) ≠ 0)]
          congr 1 <;> omega
        rw [hexp] at hmul
        exact hmul
      have hfl : ⌊q * 2 ^ ((23:ℤ) - bexp q)⌋ < (2 ^ 24 : ℤ) := by
        rw [Int.floor_lt]
        have h24 : ((2 ^ 24 : ℤ) : ℚ) = (2:ℚ) ^ (24 : ℤ) := by norm_num
        rw [h24]
        exact hylt
      have hrq : rheQ (q * 2 ^ ((23:ℤ) - bexp q)) ≤ 2 ^ 24 := by
        have := rheQ_le_floor_add_one (q * 2 ^ ((23:ℤ) - bexp q))
        omega
      have hrq' : ((rheQ (q * 2 ^ ((23:ℤ) - bexp q)) : ℤ) : ℚ) ≤ ((2:ℚ) ^ (24:ℤ)) := by
        have : ((2 ^ 24 : ℤ) : ℚ) = (2:ℚ) ^ (24 : ℤ) := by norm_num
        rw [← this]
        exact_mod_cast hrq
      have hfin : ((rheQ (q * 2 ^ ((23:ℤ) - bexp q)) : ℤ) : ℚ) * 2 ^ (bexp q - 23) ≤
          2 ^ (24:ℤ) * 2 ^ (bexp q - 23) :=
        mul_le_mul_of_nonneg_right hrq' (by positivity)
      have hexp2 : (2:ℚ) ^ (24:ℤ) * 2 ^ (bexp q - 23) = 2 ^ (bexp q + 1) := by
        rw [← zpow_add₀ (by norm_num : (2:ℚ) ≠ 0)]
        congr 1 <;> omega
      rw [hexp2] at hfin
      exact hfin
    have hlo : (2:ℚ) ^ bexp r ≤ rndQpos r := by
      rw [rndQpos_def]
      have hbr : -126 < bexp r := by
        have : -126 ≤ bexp q := le_max_right _ _
        omega
      have hbre : bexp r = qlog2 r.num.natAbs r.den := by
        obtain ⟨h1, _⟩ := qlog2_q_spec hr
        rw [bexp]
        rcases max_cases (qlog2 r.num.natAbs r.den) (-126) with ⟨hcase, _⟩ | ⟨hcase, hord⟩
        · exact hcase
        · rw [bexp] at hbr
          omega
      have hbr_le : (2:ℚ) ^ bexp r ≤ r := by
        obtain ⟨h1, _⟩ := qlog2_q_spec hr
        rw [hbre]
        exact h1
      have hyge : (2:ℚ) ^ (23:ℤ) ≤ r * 2 ^ ((23:ℤ) - bexp r) := by
        have hmul : (2:ℚ) ^ bexp r * 2 ^ ((23:ℤ) - bexp r) ≤ r * 2 ^ ((23:ℤ) - bexp r) :=
          mul_le_mul_of_nonneg_right hbr_le (by positivity)
        have hexp : (2:ℚ) ^ bexp r * 2 ^ ((23:ℤ) - bexp r) = 2 ^ (23 : ℤ) := by
          rw [← zpow_add₀ (by norm_num : (2:ℚ) ≠ 0)]
          congr 1 <;> omega
        rw [hexp] at hmul
        exact hmul
      have hflo : (2 ^ 23 : ℤ) ≤ ⌊r * 2 ^ ((23:ℤ) - bexp r)⌋ := by
        rw [Int.le_floor]
        have h23 : ((2 ^ 23 : ℤ) : ℚ) = (2:ℚ) ^ (23 : ℤ) := by norm_num
        rw [h23]
        exact hyge
      have hrq : (2 ^ 23 : ℤ) ≤ rheQ (r * 2 ^ ((23:ℤ) - bexp r)) := by
        have := rheQ_floor_le (r * 2 ^ ((23:ℤ) - bexp r))
        omega
      have hrq' : ((2:ℚ) ^ (23:ℤ)) ≤ ((rheQ (r * 2 ^ ((23:ℤ) - bexp r)) : ℤ) : ℚ) := by
        have h1 : ((2 ^ 23 : ℤ) : ℚ) = (2:ℚ) ^ (23 : ℤ) := by norm_num
        rw [← h1]
        exact_mod_cast hrq
      have hfin : (2:ℚ) ^ (23:ℤ) * 2 ^ (bexp r - 23) ≤
          ((rheQ (r * 2 ^ ((23:ℤ) - bexp r)) : ℤ) : ℚ) * 2 ^ (bexp r - 23) :=
        mul_le_mul_of_nonneg_right hrq' (by positivity)
      have hexp2 : (2:ℚ) ^ (23:ℤ) * 2 ^ (bexp r - 23) = 2 ^ bexp r := by
        rw [← zpow_add₀ (by norm_num : (2:ℚ) ≠ 0)]
        congr 1 <;> omega
      rw [hexp2] at hfin
      exact hfin
    have hmid : (2:ℚ) ^ (bexp q + 1) ≤ (2:ℚ) ^ bexp r :=
      zpow_le_zpow_right₀ (by norm_num) (by omega)
    linarith

theorem rndQ_of_pos {q : ℚ} (hq : 0 < q) : rndQ q = rndQpos q := by
  rw [rndQ, if_neg (by linarith), if_neg (by linarith)]

theorem rndQ_zero : rndQ 0 = 0 := by
  rw [rndQ]
  norm_num

theorem rndQ_mono_pos {q r : ℚ} (hq : 0 < q) (hqr : q ≤ r) : rndQ q ≤ rndQ r := by
  rw [rndQ_of_pos hq, rndQ_of_pos (lt_of_lt_of_le hq hqr)]
  exact rndQpos_mono hq hqr

theorem rndQ_exact {q : ℚ} (M : ℕ) (k : ℤ) (hM1 : 1 ≤ M) (hM2 : M ≤ 2 ^ 24)
    (hrep : q = (M : ℚ) * 2 ^ k) (hnorm : (2 : ℚ) ^ (-126 : ℤ) ≤ q) :
    rndQ q = q := by
  have hq : 0 < q := lt_of_lt_of_le (by positivity) hnorm
  rw [rndQ_of_pos hq]
  exact rndQpos_exact M k hM1 hM2 hrep hnorm

end RndQMore

section Bridges

theorem cast_natAbs_of_nonneg {x : ℤ} (hx : 0 ≤ x) : ((x.natAbs : ℕ) : ℚ) = (x : ℚ) := by
  rw [Int.cast_natAbs]
  exact congrArg Int.cast (abs_of_nonneg hx)

theorem qlog2_eq_of_val {n d : ℕ} (h1 : 1 ≤ n) (h2 : 1 ≤ d) :
    qlog2 n d = qlog2 ((n:ℚ)/d).num.natAbs ((n:ℚ)/d).den := by
  have hq : (0:ℚ) < (n:ℚ)/d := by
    have hn : (0:ℚ) < n := by exact_mod_cast h1
    have hd : (0:ℚ) < d := by exact_mod_cast h2
    positivity
  obtain ⟨a1, a2⟩ := qlog2_spec n d h1 h2
  obtain ⟨b1, b2⟩ := qlog2_q_spec hq
  exact log2_uniq a1 a2 b1 b2

/-- The integer-level rounding agrees with the specification-level one. -/
theorem val_rndPos {n d : ℕ} (h1 : 1 ≤ n) (h2 : 1 ≤ d) :
    (rndPos n d).val = rndQpos ((n:ℚ)/d) := by
  rw [rndPos_eq n d h2, rndQpos_def]
  have hbe : bexp ((n:ℚ)/d) = max (qlog2 n d) (-126) := by
    rw [bexp, ← qlog2_eq_of_val h1 h2]
  rw [F32.val, hbe]

theorem cast_shift_pos (n d : ℕ) (off : ℤ) (hoff : 0 ≤ off) :
    ((n * 2 ^ off.toNat : ℕ) : ℚ) / d = (n : ℚ)/d * 2 ^ off := by
  push_cast
  rw [← zpow_natCast (2:ℚ) off.toNat, Int.toNat_of_nonneg hoff]
  ring

theorem cast_shift_neg (n d : ℕ) (off : ℤ) (hoff : ¬ 0 ≤ off) :
    ((n : ℕ) : ℚ) / ((d * 2 ^ (-off).toNat : ℕ) : ℚ) = (n : ℚ)/d * 2 ^ off := by
  have hzp : (2:ℚ) ^ off = ((2:ℚ) ^ (-off).toNat)⁻¹ := by
    rw [← zpow_natCast (2:ℚ) (-off).toNat, Int.toNat_of_nonneg (by omega : (0:ℤ) ≤ -off),
      ← zpow_neg, neg_neg]
  push_cast
  rw [hzp, division_def, division_def, mul_inv]
  ring

theorem val_rnd2 (n d : ℕ) (off : ℤ) (h2 : 1 ≤ d) :
    (rnd2 true n d off).val = rndQ ((n:ℚ)/d * 2 ^ off) := by
  by_cases hn : n = 0
  · subst hn
    simp only [rnd2, if_pos rfl]
    have harg : ((0:ℕ):ℚ)/d * 2 ^ off = 0 := by
      push_cast
      ring
    rw [harg, rndQ_zero, F32.val]
    push_cast
    ring
  · have hpos : (0:ℚ) < (n:ℚ)/d * 2 ^ off := by
      have hn' : (0:ℚ) < n := by exact_mod_cast Nat.one_le_iff_ne_zero.mpr hn
      have hd' : (0:ℚ) < d := by exact_mod_cast h2
      positivity
    rw [rndQ_of_pos hpos]
    rw [rnd2, if_neg hn]
    simp only [if_true]
    by_cases hoff : 0 ≤ off
    · rw [if_pos hoff, val_rndPos (by
        have := Nat.one_le_two_pow (n := off.toNat)
        exact Nat.one_le_iff_ne_zero.mpr (by positivity)) h2]
      rw [cast_shift_pos n d off hoff]
    · rw [if_neg hoff, val_rndPos (Nat.one_le_iff_ne_zero.mpr hn) (by
        have := Nat.one_le_two_pow (n := (-off).toNat)
        exact Nat.one_le_iff_ne_zero.mpr (by positivity))]
      rw [cast_shift_neg n d off hoff]

theorem val_i2f_nonneg {x : ℤ} (hx : 0 ≤ x) : (i2f x).val = rndQ (x : ℚ) := by
  rw [i2f, decide_eq_true (p := 0 ≤ x) hx]
  rw [val_rnd2 x.natAbs 1 0 le_rfl]
  congr 1
  rw [zpow_zero, mul_one, Nat.cast_one, div_one]
  exact cast_natAbs_of_nonneg hx

theorem val_f32mul_nonneg {a b : F32} (ha : 0 ≤ a.m) (hb : 0 ≤ b.m) :
    (f32mul a b).val = rndQ (a.val * b.val) := by
  have hp : 0 ≤ a.m * b.m := mul_nonneg ha hb
  rw [f32mul, decide_eq_true (p := 0 ≤ a.m * b.m) hp]
  rw [val_rnd2 (a.m * b.m).natAbs 1 (a.e + b.e) le_rfl]
  congr 1
  rw [Nat.cast_one, div_one, F32.val, F32.val]
  have hcast : (((a.m * b.m).natAbs : ℕ) : ℚ) = ((a.m * b.m : ℤ) : ℚ) :=
    cast_natAbs_of_nonneg hp
  rw [hcast, zpow_add₀ (by norm_num : (2:ℚ) ≠ 0)]
  push_cast
  ring

theorem val_f32div_nonneg {a b : F32} (ha : 0 ≤ a.m) (hb : 0 < b.m) :
    (f32div a b).val = rndQ (a.val / b.val) := by
  rw [f32div, if_neg (by omega : ¬ b.m = 0)]
  have hp : 0 ≤ a.m * b.m := mul_nonneg ha (le_of_lt hb)
  rw [decide_eq_true (p := 0 ≤ a.m * b.m) hp]
  rw [val_rnd2 a.m.natAbs b.m.natAbs (a.e - b.e) (by omega : 1 ≤ b.m.natAbs)]
  congr 1
  rw [F32.val, F32.val]
  have hca : ((a.m.natAbs : ℕ) : ℚ) = ((a.m : ℤ) : ℚ) := cast_natAbs_of_nonneg ha
  have hcb : ((b.m.natAbs : ℕ) : ℚ) = ((b.m : ℤ) : ℚ) :=
    cast_natAbs_of_nonneg (le_of_lt hb)
  rw [hca, hcb, mul_div_mul_comm, zpow_sub₀ (by norm_num : (2:ℚ) ≠ 0)]

theorem f32blt_iff (a b : F32) : f32blt a b = true ↔ a.val < b.val := by
  rw [f32blt]
  simp only [decide_eq_true_eq]
  set E := min a.e b.e with hEdef
  have hEa : 0 ≤ a.e - E := by
    have := min_le_left a.e b.e
    omega
  have hEb : 0 ≤ b.e - E := by
    have := min_le_right a.e b.e
    omega
  have hva : a.val = ((a.m * 2 ^ (a.e - E).toNat : ℤ) : ℚ) * 2 ^ E := by
    rw [F32.val]
    push_cast
    rw [← zpow_natCast (2:ℚ) (a.e - E).toNat, Int.toNat_of_nonneg hEa,
      mul_assoc, ← zpow_add₀ (by norm_num : (2:ℚ) ≠ 0)]
    congr 2
    omega
  have hvb : b.val = ((b.m * 2 ^ (b.e - E).toNat : ℤ) : ℚ) * 2 ^ E := by
    rw [F32.val]
    push_cast
    rw [← zpow_natCast (2:ℚ) (b.e - E).toNat, Int.toNat_of_nonneg hEb,
      mul_assoc, ← zpow_add₀ (by norm_num : (2:ℚ) ≠ 0)]
    congr 2
    omega
  rw [hva, hvb, mul_lt_mul_right (by positivity : (0:ℚ) < 2 ^ E)]
  exact Int.cast_lt.symm

theorem f32beq_iff (a b : F32) : f32beq a b = true ↔ a.val = b.val := by
  rw [f32beq]
  simp only [decide_eq_true_eq]
  set E := min a.e b.e with hEdef
  have hEa : 0 ≤ a.e - E := by
    have := min_le_left a.e b.e
    omega
  have hEb : 0 ≤ b.e - E := by
    have := min_le_right a.e b.e
    omega
  have hva : a.val = ((a.m * 2 ^ (a.e - E).toNat : ℤ) : ℚ) * 2 ^ E := by
    rw [F32.val]
    push_cast
    rw [← zpow_natCast (2:ℚ) (a.e - E).toNat, Int.toNat_of_nonneg hEa,
      mul_assoc, ← zpow_add₀ (by norm_num : (2:ℚ) ≠ 0)]
    congr 2
    omega
  have hvb : b.val = ((b.m * 2 ^ (b.e - E).toNat : ℤ) : ℚ) * 2 ^ E := by
    rw [F32.val]
    push_cast
    rw [← zpow_natCast (2:ℚ) (b.e - E).toNat, Int.toNat_of_nonneg hEb,
      mul_assoc, ← zpow_add₀ (by norm_num : (2:ℚ) ≠ 0)]
    congr 2
    omega
  constructor
  · intro h
    rw [hva, hvb, h]
  · intro h
    rw [hva, hvb] at h
    have := mul_right_cancel₀ (by positivity : ((2:ℚ) ^ E) ≠ 0) h
    exact_mod_cast this

/-- `(int)` truncation of a nonnegative float is the floor of its value. -/
theorem truncF_eq_floor {a : F32} (hm : 0 ≤ a.m) : truncF a = ⌊a.val⌋ := by
  rw [truncF]
  by_cases he : 0 ≤ a.e
  · rw [if_pos he]
    have hval : a.val = ((a.m * 2 ^ a.e.toNat : ℤ) : ℚ) := by
      rw [F32.val]
      push_cast
      rw [← zpow_natCast (2:ℚ) a.e.toNat, Int.toNat_of_nonneg he]
    rw [hval, Int.floor_intCast]
  · rw [if_neg he]
    have hval : a.val = (a.m : ℚ) / ((2 ^ (-a.e).toNat : ℕ) : ℚ) := by
      rw [F32.val]
      have hzp : (2:ℚ) ^ a.e = ((2:ℚ) ^ (-a.e).toNat)⁻¹ := by
        rw [← zpow_natCast (2:ℚ) (-a.e).toNat, Int.toNat_of_nonneg (by omega : (0:ℤ) ≤ -a.e),
          ← zpow_neg, neg_neg]
      push_cast
      rw [hzp, division_def]
    rw [hval, Rat.floor_intCast_div_natCast]
    rw [Int.tdiv_eq_ediv hm (by positivity)]
    norm_cast

end Bridges

section DrawLemmas

theorem updB_apply (f : ℤ → ℕ) (i : ℤ) (v : ℕ) (t : ℤ) :
    updB f i v t = if t = i then v else f t := rfl

/-- The channel-copy loop writes the byte range `[fb_idx, fb_idx + n)`
(with the reversed channel of the source pixel) and touches nothing else. -/
theorem draw_fold_c_get (img : Image) (img_idx fb_idx : ℤ) :
    ∀ (n : ℕ) (buf : ℤ → ℕ) (t : ℤ),
      ((List.range n).foldl
        (fun bufC (c : ℕ) => updB bufC (fb_idx + (c : ℤ))
          (getI img.data (img_idx + img.bpp - 1 - (c : ℤ)))) buf) t =
      if fb_idx ≤ t ∧ t < fb_idx + (n : ℤ) then
        getI img.data (img_idx + img.bpp - 1 - (t - fb_idx))
      else buf t := by
  intro n
  induction n with
  | zero =>
    intro buf t
    simp only [List.range_zero, List.foldl_nil, Nat.cast_zero, add_zero]
    rw [if_neg (by omega)]
  | succ k ih =>
    intro buf t
    rw [List.range_succ, List.foldl_append]
    simp only [List.foldl_cons, List.foldl_nil]
    rw [updB_apply]
    by_cases ht : t = fb_idx + (k : ℤ)
    · rw [if_pos ht, if_pos (by push_cast; omega)]
      have : t - fb_idx = (k : ℤ) := by omega
      rw [this]
    · rw [if_neg ht, ih]
      by_cases hin : fb_idx ≤ t ∧ t < fb_idx + (k : ℤ)
      · rw [if_pos hin, if_pos (by push_cast; omega)]
      · rw [if_neg hin, if_neg (by push_cast; omega)]

/-- `draw_c_loop`, pointwise. -/
theorem draw_c_loop_get (img : Image) (img_idx fb_idx : ℤ) (buf : ℤ → ℕ) (t : ℤ) :
    draw_c_loop img img_idx fb_idx buf t =
      if fb_idx ≤ t ∧ t < fb_idx + (img.bpp.toNat : ℤ) then
        getI img.data (img_idx + img.bpp - 1 - (t - fb_idx))
      else buf t := by
  rw [draw_c_loop]
  exact draw_fold_c_get img img_idx fb_idx img.bpp.toNat buf t

theorem draw_x_loop_zero (fb : framebuffer) (img : Image) (x_offset fro iro xs : ℤ)
    (buf : ℤ → ℕ) : draw_x_loop fb img x_offset fro iro xs xs buf = buf := by
  rw [draw_x_loop]
  simp

theorem draw_x_loop_succ (fb : framebuffer) (img : Image) (x_offset fro iro xs : ℤ)
    (k : ℕ) (buf : ℤ → ℕ) :
    draw_x_loop fb img x_offset fro iro xs (xs + ((k : ℤ) + 1)) buf =
      draw_c_loop img (iro + (xs + (k : ℤ) - x_offset) * img.bpp)
        (fro + (xs + (k : ℤ)) * fb.bpp)
        (draw_x_loop fb img x_offset fro iro xs (xs + (k : ℤ)) buf) := by
  rw [draw_x_loop, draw_x_loop]
  have h1 : (xs + ((k : ℤ) + 1) - xs).toNat = k + 1 := by omega
  have h2 : (xs + (k : ℤ) - xs).toNat = k := by omega
  rw [h1, h2, List.range_succ, List.foldl_append]
  simp only [List.foldl_cons, List.foldl_nil]

/-- Bytes below the row's clipped start are untouched by the row loop. -/
theorem draw_x_loop_unchanged (fb : framebuffer) (img : Image) (x_offset fro iro xs : ℤ)
    (hB : 0 ≤ fb.bpp) :
    ∀ (n : ℕ) (buf : ℤ → ℕ) (t : ℤ), t < fro + xs * fb.bpp →
      draw_x_loop fb img x_offset fro iro xs (xs + (n : ℤ)) buf t = buf t := by
  intro n
  induction n with
  | zero =>
    intro buf t ht
    simp only [Nat.cast_zero, add_zero]
    rw [draw_x_loop_zero]
  | succ k ih =>
    intro buf t ht
    have hcast : ((k + 1 : ℕ) : ℤ) = (k : ℤ) + 1 := by push_cast; ring
    rw [hcast, draw_x_loop_succ, draw_c_loop_get]
    rw [if_neg (by
      have hxx : xs * fb.bpp ≤ (xs + (k : ℤ)) * fb.bpp :=
        mul_le_mul_of_nonneg_right (by omega) hB
      omega)]
    exact ih buf t ht

/-- Value of a byte written by the row loop: device pixel `x = xs + j`,
channel `c`, reads the reversed channel of source pixel `x - x_offset`. -/
theorem draw_x_loop_get (fb : framebuffer) (img : Image) (x_offset fro iro xs : ℤ)
    (hB : 0 < fb.bpp) (hle : img.bpp ≤ fb.bpp) :
    ∀ (n : ℕ) (buf : ℤ → ℕ) (j : ℕ) (c : ℤ), (j : ℤ) < (n : ℤ) → 0 ≤ c → c < img.bpp →
      draw_x_loop fb img x_offset fro iro xs (xs + (n : ℤ)) buf
          (fro + (xs + (j : ℤ)) * fb.bpp + c) =
        getI img.data (iro + (xs + (j : ℤ) - x_offset) * img.bpp + img.bpp - 1 - c) := by
  intro n
  induction n with
  | zero =>
    intro buf j c hj hc1 hc2
    omega
  | succ k ih =>
    intro buf j c hj hc1 hc2
    have hcast : ((k + 1 : ℕ) : ℤ) = (k : ℤ) + 1 := by push_cast; ring
    rw [hcast, draw_x_loop_succ, draw_c_loop_get]
    by_cases hjk : j = k
    · subst hjk
      rw [if_pos (by
        constructor
        · omega
        · have : c < (img.bpp.toNat : ℤ) := by omega
          omega)]
      have harg : fro + (xs + (j : ℤ)) * fb.bpp + c - (fro + (xs + (j : ℤ)) * fb.bpp) = c := by
        ring
      rw [harg]
    · have hjlt : (j : ℤ) < (k : ℤ) := by omega
      rw [if_neg (by
        have hxx : ((xs + (j : ℤ)) + 1) * fb.bpp ≤ (xs + (k : ℤ)) * fb.bpp :=
          mul_le_mul_of_nonneg_right (by omega) (by omega)
        have hcb : c < fb.bpp := lt_of_lt_of_le hc2 hle
        have hexp : ((xs + (j : ℤ)) + 1) * fb.bpp = (xs + (j : ℤ)) * fb.bpp + fb.bpp := by
          ring
        omega)]
      exact ih buf j c hjlt hc1 hc2

theorem draw_y_loop_zero (fb : framebuffer) (img : Image) (x_offset y_offset xs xe ys : ℤ)
    (buf : ℤ → ℕ) : draw_y_loop fb img x_offset y_offset xs xe ys ys buf = buf := by
  rw [draw_y_loop]
  simp

theorem draw_y_loop_succ (fb : framebuffer) (img : Image) (x_offset y_offset xs xe ys : ℤ)
    (k : ℕ) (buf : ℤ → ℕ) :
    draw_y_loop fb img x_offset y_offset xs xe ys (ys + ((k : ℤ) + 1)) buf =
      draw_x_loop fb img x_offset ((ys + (k : ℤ)) * fb.width * fb.bpp)
        ((ys + (k : ℤ) - y_offset) * img.width * img.bpp) xs xe
        (draw_y_loop fb img x_offset y_offset xs xe ys (ys + (k : ℤ)) buf) := by
  rw [draw_y_loop, draw_y_loop]
  have h1 : (ys + ((k : ℤ) + 1) - ys).toNat = k + 1 := by omega
  have h2 : (ys + (k : ℤ) - ys).toNat = k := by omega
  rw [h1, h2, List.range_succ, List.foldl_append]
  simp only [List.foldl_cons, List.foldl_nil]

/-- Value of a byte written by the clipped blit: device pixel
`(xs + j, ys + i)`, channel `c`. -/
theorem draw_y_loop_get (fb : framebuffer) (img : Image) (x_offset y_offset xs ys : ℤ)
    (hB : 0 < fb.bpp) (hle : img.bpp ≤ fb.bpp) (hxs : 0 ≤ xs) :
    ∀ (m : ℕ) (buf : ℤ → ℕ) (i : ℕ) (nx : ℕ) (j : ℕ) (c : ℤ),
      (i : ℤ) < (m : ℤ) → (j : ℤ) < (nx : ℤ) → 0 ≤ c → c < img.bpp →
      xs + (nx : ℤ) ≤ fb.width →
      draw_y_loop fb img x_offset y_offset xs (xs + (nx : ℤ)) ys (ys + (m : ℤ)) buf
          ((ys + (i : ℤ)) * fb.width * fb.bpp + (xs + (j : ℤ)) * fb.bpp + c) =
        getI img.data ((ys + (i : ℤ) - y_offset) * img.width * img.bpp +
          (xs + (j : ℤ) - x_offset) * img.bpp + img.bpp - 1 - c) := by
  intro m
  induction m with
  | zero =>
    intro buf i nx j c hi hj hc1 hc2 hxw
    omega
  | succ k ih =>
    intro buf i nx j c hi hj hc1 hc2 hxw
    have hcast : ((k + 1 : ℕ) : ℤ) = (k : ℤ) + 1 := by push_cast; ring
    rw [hcast, draw_y_loop_succ]
    by_cases hik : i = k
    · subst hik
      exact draw_x_loop_get fb img x_offset ((ys + (i : ℤ)) * fb.width * fb.bpp)
        ((ys + (i : ℤ) - y_offset) * img.width * img.bpp) xs hB hle nx _ j c hj hc1 hc2
    · have hilt : (i : ℤ) < (k : ℤ) := by omega
      rw [draw_x_loop_unchanged fb img x_offset _ _ xs (by omega) nx _ _ (by
        have hxj : (xs + (j : ℤ)) * fb.bpp + c < ((xs + (j : ℤ)) + 1) * fb.bpp := by
          have : c < fb.bpp := lt_of_lt_of_le hc2 hle
          have hexp : ((xs + (j : ℤ)) + 1) * fb.bpp = (xs + (j : ℤ)) * fb.bpp + fb.bpp := by
            ring
          omega
        have hxw' : ((xs + (j : ℤ)) + 1) * fb.bpp ≤ fb.width * fb.bpp :=
          mul_le_mul_of_nonneg_right (by omega) (by omega)
        have hrow : (ys + (i : ℤ)) * fb.width * fb.bpp + fb.width * fb.bpp =
            ((ys + (i : ℤ)) + 1) * fb.width * fb.bpp := by ring
        have hrow2 : ((ys + (i : ℤ)) + 1) * (fb.width * fb.bpp) ≤
            (ys + (k : ℤ)) * (fb.width * fb.bpp) := by
          apply mul_le_mul_of_nonneg_right (by omega)
          have h1 : (0 : ℤ) ≤ fb.width := by
            by_contra hneg
            push_neg at hneg
            have : fb.width * fb.bpp < 0 * fb.bpp := by
              exact mul_lt_mul_of_pos_right hneg hB
            have hj0 : (0 : ℤ) ≤ xs + (j : ℤ) := by omega
            have : (xs + (j:ℤ)) + 1 ≤ fb.width := by
              by_contra hc
              push_neg at hc
              nlinarith
            omega
          positivity
        have hxb : (0 : ℤ) ≤ xs * fb.bpp := mul_nonneg hxs (by omega)
        nlinarith [hrow2])]
      exact ih buf i nx j c hilt hj hc1 hc2 hxw

end DrawLemmas

section ResizeLemmas

theorem setI_length (l : List ℕ) (i : ℤ) (v : ℕ) : (setI l i v).length = l.length := by
  rw [setI]
  split_ifs <;> simp

theorem getI_setI (l : List ℕ) (i : ℤ) (v : ℕ) (t : ℤ) :
    getI (setI l i v) t =
      if t = i ∧ 0 ≤ i ∧ i.toNat < l.length then v else getI l t := by
  rw [setI]
  by_cases hi : 0 ≤ i
  · rw [if_pos hi]
    by_cases ht : 0 ≤ t
    · by_cases hti : t = i
      · subst hti
        by_cases hlen : t.toNat < l.length
        · rw [if_pos ⟨rfl, hi, hlen⟩, getI, if_pos ht, List.getD_eq_getElem?_getD,
            List.getElem?_set_self hlen]
          rfl
        · rw [if_neg (by rintro ⟨_, _, h3⟩; omega), getI, getI, if_pos ht, if_pos ht,
            List.getD_eq_getElem?_getD, List.getD_eq_getElem?_getD]
          have h1 : (l.set t.toNat v)[t.toNat]? = none := by
            rw [List.getElem?_eq_none]
            rw [List.length_set]
            omega
          have h2 : l[t.toNat]? = none := by
            rw [List.getElem?_eq_none]
            omega
          rw [h1, h2]
      · rw [if_neg (by tauto), getI, getI, if_pos ht, if_pos ht,
          List.getD_eq_getElem?_getD, List.getD_eq_getElem?_getD,
          List.getElem?_set_ne (by omega : i.toNat ≠ t.toNat)]
    · rw [if_neg (by rintro ⟨rfl, _, _⟩; omega), getI, getI, if_neg ht, if_neg ht]
  · rw [if_neg hi, if_neg (by rintro ⟨_, hh, _⟩; omega)]

theorem resize_fold_c_length (src : Image) (si di : ℤ) :
    ∀ (xs : List ℕ) (data : List ℕ),
      ((xs).foldl
        (fun dataC (c : ℕ) => setI dataC (di + (c : ℤ)) (getI src.data (si + (c : ℤ))))
        data).length = data.length := by
  intro xs
  induction xs with
  | nil => intro data; rfl
  | cons hd tl ih =>
    intro data
    rw [List.foldl_cons, ih, setI_length]

theorem resize_c_loop_length (src : Image) (si di : ℤ) (data : List ℕ) :
    (resize_c_loop src si di data).length = data.length := by
  rw [resize_c_loop]
  exact resize_fold_c_length src si di _ data

/-- The channel loop of resize writes `[dst, dst + n)` from
`src.data[src_index ..]` and touches nothing else. -/
theorem resize_fold_c_get (src : Image) (si di : ℤ) :
    ∀ (n : ℕ) (data : List ℕ) (t : ℤ), 0 ≤ di → di + (n : ℤ) ≤ (data.length : ℤ) →
      getI ((List.range n).foldl
        (fun dataC (c : ℕ) => setI dataC (di + (c : ℤ)) (getI src.data (si + (c : ℤ))))
        data) t =
      if di ≤ t ∧ t < di + (n : ℤ) then getI src.data (si + (t - di)) else getI data t := by
  intro n
  induction n with
  | zero =>
    intro data t h1 h2
    simp only [List.range_zero, List.foldl_nil, Nat.cast_zero, add_zero]
    rw [if_neg (by omega)]
  | succ k ih =>
    intro data t h1 h2
    rw [List.range_succ, List.foldl_append]
    simp only [List.foldl_cons, List.foldl_nil]
    rw [getI_setI]
    have hlen := resize_fold_c_length src si di (List.range k) data
    by_cases ht : t = di + (k : ℤ)
    · rw [if_pos (by
        refine ⟨ht, by omega, ?_⟩
        rw [hlen]
        push_cast at h2 ⊢
        omega)]
      rw [if_pos (by push_cast; omega)]
      have : t - di = (k : ℤ) := by omega
      rw [this]
    · rw [if_neg (by tauto)]
      rw [ih data t h1 (by push_cast at h2 ⊢; omega)]
      by_cases hin : di ≤ t ∧ t < di + (k : ℤ)
      · rw [if_pos hin, if_pos (by push_cast; omega)]
      · rw [if_neg hin, if_neg (by push_cast; omega)]

theorem resize_c_loop_get (src : Image) (si di : ℤ) (data : List ℕ) (t : ℤ)
    (h1 : 0 ≤ di) (h2 : di + (src.bpp.toNat : ℤ) ≤ (data.length : ℤ)) :
    getI (resize_c_loop src si di data) t =
      if di ≤ t ∧ t < di + (src.bpp.toNat : ℤ) then getI src.data (si + (t - di))
      else getI data t := by
  rw [resize_c_loop]
  exact resize_fold_c_get src si di src.bpp.toNat data t h1 h2

theorem resize_x_loop_length (src : Image) (xr yr : F32) (stride nw : ℤ) (y : ℕ)
    (data : List ℕ) : (resize_x_loop src xr yr stride nw y data).length = data.length := by
  rw [resize_x_loop]
  generalize List.range nw.toNat = l
  induction l generalizing data with
  | nil => rfl
  | cons hd tl ih =>
    rw [List.foldl_cons, ih, resize_c_loop_length]

theorem resize_y_loop_length (src : Image) (xr yr : F32) (stride nw nh : ℤ)
    (data : List ℕ) : (resize_y_loop src xr yr stride nw nh data).length = data.length := by
  rw [resize_y_loop]
  generalize List.range nh.toNat = l
  induction l generalizing data with
  | nil => rfl
  | cons hd tl ih =>
    rw [List.foldl_cons, ih, resize_x_loop_length]

theorem resize_x_loop_zero (src : Image) (xr yr : F32) (stride : ℤ) (y : ℕ)
    (data : List ℕ) : resize_x_loop src xr yr stride 0 y data = data := by
  rw [resize_x_loop]
  simp

theorem resize_x_loop_succ (src : Image) (xr yr : F32) (stride : ℤ) (k : ℕ) (y : ℕ)
    (data : List ℕ) :
    resize_x_loop src xr yr stride (((k + 1 : ℕ) : ℤ)) y data =
      resize_c_loop src
        (truncF (f32mul (i2f (y : ℤ)) yr) * src.stride +
          truncF (f32mul (i2f (k : ℤ)) xr) * src.bpp)
        ((y : ℤ) * stride + (k : ℤ) * src.bpp)
        (resize_x_loop src xr yr stride ((k : ℕ) : ℤ) y data) := by
  rw [resize_x_loop, resize_x_loop]
  have h1 : (((k + 1 : ℕ) : ℤ)).toNat = k + 1 := by omega
  have h2 : (((k : ℕ) : ℤ)).toNat = k := by omega
  rw [h1, h2, List.range_succ, List.foldl_append]
  simp only [List.foldl_cons, List.foldl_nil]

theorem resize_fold_c_below (src : Image) (si di : ℤ) :
    ∀ (n : ℕ) (data : List ℕ) (t : ℤ), t < di →
      getI ((List.range n).foldl
        (fun dataC (c : ℕ) => setI dataC (di + (c : ℤ)) (getI src.data (si + (c : ℤ))))
        data) t = getI data t := by
  intro n
  induction n with
  | zero =>
    intro data t ht
    rfl
  | succ k ih =>
    intro data t ht
    rw [List.range_succ, List.foldl_append]
    simp only [List.foldl_cons, List.foldl_nil]
    rw [getI_setI, if_neg (by rintro ⟨rfl, _, _⟩; omega)]
    exact ih data t ht

theorem resize_c_loop_below (src : Image) (si di : ℤ) (data : List ℕ) (t : ℤ)
    (ht : t < di) : getI (resize_c_loop src si di data) t = getI data t := by
  rw [resize_c_loop]
  exact resize_fold_c_below src si di src.bpp.toNat data t ht

theorem resize_x_loop_unchanged (src : Image) (xr yr : F32) (stride : ℤ) (y : ℕ)
    (hb : 0 ≤ src.bpp) :
    ∀ (n : ℕ) (data : List ℕ) (t : ℤ), t < (y : ℤ) * stride →
      getI (resize_x_loop src xr yr stride ((n : ℕ) : ℤ) y data) t = getI data t := by
  intro n
  induction n with
  | zero =>
    intro data t ht
    rw [Nat.cast_zero, resize_x_loop_zero]
  | succ k ih =>
    intro data t ht
    rw [resize_x_loop_succ]
    rw [resize_c_loop_below src _ _ _ t (by
      have hj : (0 : ℤ) ≤ (k : ℤ) * src.bpp := mul_nonneg (by omega) hb
      omega)]
    exact ih data t ht

/-- Value of a byte written by the row loop of resize: output pixel
`x = j`, channel `c`, reads the nearest-neighbour source pixel computed
in binary32. -/
theorem resize_x_loop_get (src : Image) (xr yr : F32) (stride : ℤ) (y : ℕ)
    (hb : 0 < src.bpp) (hstride : 0 ≤ stride) :
    ∀ (n : ℕ) (data : List ℕ) (j : ℕ) (c : ℤ), (j : ℤ) < (n : ℤ) → 0 ≤ c → c < src.bpp →
      (y : ℤ) * stride + (n : ℤ) * src.bpp ≤ (data.length : ℤ) →
      getI (resize_x_loop src xr yr stride ((n : ℕ) : ℤ) y data)
          ((y : ℤ) * stride + (j : ℤ) * src.bpp + c) =
        getI src.data (truncF (f32mul (i2f (y : ℤ)) yr) * src.stride +
          truncF (f32mul (i2f (j : ℤ)) xr) * src.bpp + c) := by
  intro n
  induction n with
  | zero =>
    intro data j c hj hc0 hc1 hlen
    omega
  | succ k ih =>
    intro data j c hj hc0 hc1 hlen
    rw [resize_x_loop_succ]
    have hylen : (0 : ℤ) ≤ (y : ℤ) * stride := mul_nonneg (by omega) hstride
    have hjb : (0 : ℤ) ≤ (k : ℤ) * src.bpp := mul_nonneg (by omega) (by omega)
    have hlen' : ((resize_x_loop src xr yr stride ((k : ℕ) : ℤ) y data).length : ℤ) =
        (data.length : ℤ) := by
      rw [resize_x_loop_length]
    rw [resize_c_loop_get src _ _ _ _ (by omega) (by
      rw [hlen']
      have hk1 : ((k : ℤ) + 1) * src.bpp ≤ ((k + 1 : ℕ) : ℤ) * src.bpp := by
        push_cast
        omega
      have : (k : ℤ) * src.bpp + (src.bpp.toNat : ℤ) = ((k : ℤ) + 1) * src.bpp := by
        have : (src.bpp.toNat : ℤ) = src.bpp := by omega
        rw [this]
        ring
      push_cast at hlen ⊢
      nlinarith [hlen])]
    by_cases hjk : j = k
    · subst hjk
      rw [if_pos (by
        constructor
        · omega
        · have : c < (src.bpp.toNat : ℤ) := by omega
          omega)]
      have harg : (y : ℤ) * stride + (j : ℤ) * src.bpp + c -
          ((y : ℤ) * stride + (j : ℤ) * src.bpp) = c := by ring
      rw [harg]
    · have hjlt : (j : ℤ) < (k : ℤ) := by omega
      rw [if_neg (by
        have hxx : ((j : ℤ) + 1) * src.bpp ≤ (k : ℤ) * src.bpp :=
          mul_le_mul_of_nonneg_right (by omega) (by omega)
        have hexp : ((j : ℤ) + 1) * src.bpp = (j : ℤ) * src.bpp + src.bpp := by ring
        omega)]
      exact ih data j c hjlt hc0 hc1 (by
        have hk1 : (k : ℤ) * src.bpp ≤ ((k + 1 : ℕ) : ℤ) * src.bpp :=
          mul_le_mul_of_nonneg_right (by push_cast; omega) (by omega)
        omega)

theorem resize_y_loop_zero (src : Image) (xr yr : F32) (stride nw : ℤ)
    (data : List ℕ) : resize_y_loop src xr yr stride nw 0 data = data := by
  rw [resize_y_loop]
  simp

theorem resize_y_loop_succ (src : Image) (xr yr : F32) (stride nw : ℤ) (k : ℕ)
    (data : List ℕ) :
    resize_y_loop src xr yr stride nw ((k + 1 : ℕ) : ℤ) data =
      resize_x_loop src xr yr stride nw k
        (resize_y_loop src xr yr stride nw ((k : ℕ) : ℤ) data) := by
  rw [resize_y_loop, resize_y_loop]
  have h1 : (((k + 1 : ℕ) : ℤ)).toNat = k + 1 := by omega
  have h2 : (((k : ℕ) : ℤ)).toNat = k := by omega
  rw [h1, h2, List.range_succ, List.foldl_append]
  simp only [List.foldl_cons, List.foldl_nil]

/-- Value of a byte written by the full resize grid: output pixel
`(j, i)`, channel `c`. -/
theorem resize_y_loop_get (src : Image) (xr yr : F32) (nx : ℕ)
    (hb : 0 < src.bpp) :
    ∀ (m : ℕ) (data : List ℕ) (i j : ℕ) (c : ℤ), (i : ℤ) < (m : ℤ) → (j : ℤ) < (nx : ℤ) →
      0 ≤ c → c < src.bpp →
      (m : ℤ) * ((nx : ℤ) * src.bpp) ≤ (data.length : ℤ) →
      getI (resize_y_loop src xr yr ((nx : ℤ) * src.bpp) ((nx : ℕ) : ℤ) ((m : ℕ) : ℤ) data)
          ((i : ℤ) * ((nx : ℤ) * src.bpp) + (j : ℤ) * src.bpp + c) =
        getI src.data (truncF (f32mul (i2f (i : ℤ)) yr) * src.stride +
          truncF (f32mul (i2f (j : ℤ)) xr) * src.bpp + c) := by
  intro m
  induction m with
  | zero =>
    intro data i j c hi hj hc0 hc1 hlen
    omega
  | succ k ih =>
    intro data i j c hi hj hc0 hc1 hlen
    rw [resize_y_loop_succ]
    have hstr : (0 : ℤ) ≤ (nx : ℤ) * src.bpp := mul_nonneg (by omega) (by omega)
    have hlen' : ((resize_y_loop src xr yr ((nx : ℤ) * src.bpp) ((nx : ℕ) : ℤ)
        ((k : ℕ) : ℤ) data).length : ℤ) = (data.length : ℤ) := by
      rw [resize_y_loop_length]
    by_cases hik : i = k
    · subst hik
      exact resize_x_loop_get src xr yr ((nx : ℤ) * src.bpp) i hb hstr nx _ j c hj hc0 hc1
        (by
          rw [hlen']
          have hrow : ((i : ℤ) + 1) * ((nx : ℤ) * src.bpp) ≤
              ((i + 1 : ℕ) : ℤ) * ((nx : ℤ) * src.bpp) :=
            mul_le_mul_of_nonneg_right (by push_cast; omega) hstr
          have hexp : ((i : ℤ) + 1) * ((nx : ℤ) * src.bpp) =
              (i : ℤ) * ((nx : ℤ) * src.bpp) + (nx : ℤ) * src.bpp := by ring
          omega)
    · have hilt : (i : ℤ) < (k : ℤ) := by omega
      rw [resize_x_loop_unchanged src xr yr ((nx : ℤ) * src.bpp) k (by omega) nx _ _ (by
        have hin : (j : ℤ) * src.bpp + c < (nx : ℤ) * src.bpp := by
          have hxx : ((j : ℤ) + 1) * src.bpp ≤ (nx : ℤ) * src.bpp :=
            mul_le_mul_of_nonneg_right (by omega) (by omega)
          have hexp : ((j : ℤ) + 1) * src.bpp = (j : ℤ) * src.bpp + src.bpp := by ring
          omega
        have hrow : ((i : ℤ) + 1) * ((nx : ℤ) * src.bpp) ≤ (k : ℤ) * ((nx : ℤ) * src.bpp) :=
          mul_le_mul_of_nonneg_right (by omega) hstr
        have hexp : ((i : ℤ) + 1) * ((nx : ℤ) * src.bpp) =
            (i : ℤ) * ((nx : ℤ) * src.bpp) + (nx : ℤ) * src.bpp := by ring
        omega)]
      exact ih data i j c hilt hj hc0 hc1 (by
        have hk1 : (k : ℤ) * ((nx : ℤ) * src.bpp) ≤
            ((k + 1 : ℕ) : ℤ) * ((nx : ℤ) * src.bpp) :=
          mul_le_mul_of_nonneg_right (by push_cast; omega) hstr
        omega)

/-- Pointwise description of `Image_resize_linear`: each output byte is
the byte of the binary32-computed nearest-neighbour source pixel. -/
theorem Image_resize_linear_get (src : Image) (nw nh : ℤ) (hb : 0 < src.bpp)
    (x y c : ℤ) (hx0 : 0 ≤ x) (hx1 : x < nw) (hy0 : 0 ≤ y) (hy1 : y < nh)
    (hc0 : 0 ≤ c) (hc1 : c < src.bpp) :
    getI (Image_resize_linear src nw nh).data (y * (nw * src.bpp) + x * src.bpp + c) =
      getI src.data
        (truncF (f32mul (i2f y) (f32div (i2f src.height) (i2f nh))) * src.stride +
         truncF (f32mul (i2f x) (f32div (i2f src.width) (i2f nw))) * src.bpp + c) := by
  have hnw : nw = ((nw.toNat : ℕ) : ℤ) := by omega
  have hnh : nh = ((nh.toNat : ℕ) : ℤ) := by omega
  have hxj : x = ((x.toNat : ℕ) : ℤ) := by omega
  have hyi : y = ((y.toNat : ℕ) : ℤ) := by omega
  rw [Image_resize_linear]
  simp only
  rw [hnw, hnh, hxj, hyi]
  rw [resize_y_loop_get src _ _ nw.toNat hb nh.toNat _ y.toNat x.toNat c
    (by omega) (by omega) hc0 hc1 (by
      rw [List.length_replicate]
      have hge : (0:ℤ) ≤ ((nh.toNat : ℕ) : ℤ) * (((nw.toNat : ℕ) : ℤ) * src.bpp) := by
        apply mul_nonneg (by omega)
        apply mul_nonneg (by omega) (by omega)
      omega)]

end ResizeLemmas

section ClaimHelpers

theorem F32.m_nonneg_of_val {a : F32} (h : 0 ≤ a.val) : 0 ≤ a.m := by
  rw [F32.val] at h
  by_contra hneg
  push_neg at hneg
  have h1 : (a.m : ℚ) < 0 := by exact_mod_cast hneg
  have h2 : (0:ℚ) < (2:ℚ) ^ a.e := by positivity
  nlinarith

theorem F32.m_pos_of_val {a : F32} (h : 0 < a.val) : 0 < a.m := by
  rw [F32.val] at h
  by_contra hneg
  push_neg at hneg
  have h1 : (a.m : ℚ) ≤ 0 := by exact_mod_cast hneg
  have h2 : (0:ℚ) < (2:ℚ) ^ a.e := by positivity
  nlinarith

/-- `rndQ` is exact on integers up to `2 ^ 24`. -/
theorem rndQ_int_small {x : ℤ} (h0 : 0 ≤ x) (h24 : x ≤ 2 ^ 24) : rndQ (x : ℚ) = (x : ℚ) := by
  rcases eq_or_lt_of_le h0 with h | h
  · rw [← h]
    exact rndQ_zero
  · apply rndQ_exact x.toNat 0 (by omega) (by omega)
    · rw [zpow_zero, mul_one]
      exact_mod_cast (by omega : x = ((x.toNat : ℤ)))
    · have h1 : (1:ℚ) ≤ (x:ℚ) := by exact_mod_cast h
      have h2 : (2:ℚ) ^ (-126:ℤ) ≤ 1 := by
        rw [(by norm_num : (1:ℚ) = (2:ℚ) ^ (0:ℤ))]
        exact zpow_le_zpow_right₀ (by norm_num) (by omega)
      linarith

/-- `(float) x` is exact for `0 ≤ x ≤ 2 ^ 24`. -/
theorem val_i2f_small {x : ℤ} (h0 : 0 ≤ x) (h24 : x ≤ 2 ^ 24) : (i2f x).val = (x : ℚ) := by
  rw [val_i2f_nonneg h0]
  exact rndQ_int_small h0 h24

theorem c0_1_eq : c0_1 = ⟨13421773, -27⟩ := by decide

theorem c5_0_eq : c5_0 = ⟨10485760, -21⟩ := by decide

theorem c0_1_val : c0_1.val = (13421773 : ℚ) / 134217728 := by
  rw [c0_1_eq, F32.val]
  norm_num

theorem c5_0_val : c5_0.val = 5 := by
  rw [c5_0_eq, F32.val]
  have h21 : ((10485760 : ℤ) : ℚ) = 5 * 2 ^ (21 : ℤ) := by norm_num
  rw [h21, mul_assoc, ← zpow_add₀ (by norm_num : (2:ℚ) ≠ 0)]
  norm_num

theorem f32blt_false {a b : F32} (h : f32blt a b = false) : b.val ≤ a.val := by
  by_contra hc
  push_neg at hc
  have := (f32blt_iff a b).mpr hc
  rw [h] at this
  exact Bool.false_ne_true this

theorem blt_false_of_not_true {a b : F32} (h : ¬ f32blt a b = true) : b.val ≤ a.val := by
  apply f32blt_false
  cases hb : f32blt a b
  · rfl
  · exact absurd hb h

/-- After the clamp at src/main.c:124-125 the scale value lies in
`[0.1f, 5.0]` (note `0.1f > 1/10`). -/
theorem clampScale_bounds (s : F32) :
    c0_1.val ≤ (clampScale s).val ∧ (clampScale s).val ≤ 5 := by
  simp only [clampScale]
  have h15 : c0_1.val ≤ 5 := by
    rw [c0_1_val]
    norm_num
  by_cases h2 : f32blt c5_0 (if f32blt s c0_1 then c0_1 else s) = true
  · rw [if_pos h2, c5_0_val]
    exact ⟨h15, le_refl 5⟩
  · rw [if_neg h2]
    have h2' : (if f32blt s c0_1 then c0_1 else s).val ≤ c5_0.val := blt_false_of_not_true h2
    rw [c5_0_val] at h2'
    refine ⟨?_, h2'⟩
    by_cases h1 : f32blt s c0_1 = true
    · rw [if_pos h1]
    · rw [if_neg h1]
      exact blt_false_of_not_true h1

/-- In every branch of the keystroke handler the new scale is the
clamped one. -/
theorem stepLoop_scale (img : Image) (dflt : F32) (s : LoopSt) (ch : Char) (ok : Bool)
    (s' : LoopSt) (r : Option (ℤ × ℤ)) (h : stepLoop img dflt s ch ok = some (s', r)) :
    s'.scale = clampScale (stepScale dflt s.scale ch) := by
  rw [stepLoop] at h
  by_cases hq : ch = 'q'
  · rw [if_pos hq] at h
    exact absurd h (by simp)
  · rw [if_neg hq] at h
    simp only at h
    by_cases hbeq : f32beq (clampScale (stepScale dflt s.scale ch)) s.prevScale = true
    · rw [if_pos hbeq] at h
      rw [Option.some.injEq, Prod.mk.injEq] at h
      obtain ⟨h1, _⟩ := h
      rw [← h1]
    · rw [if_neg hbeq] at h
      rw [Option.some.injEq, Prod.mk.injEq] at h
      obtain ⟨h1, _⟩ := h
      rw [← h1]

end ClaimHelpers

/-! ## Claims -/

/-- Claim C1: for `bytesPerPixel ≥ 3` and a 3-channel image, every device
pixel `(x, y)` in the intersection of the placed image rectangle with the
device rectangle gets, at channel byte `c`, the value of image channel
`imageChannels - 1 - c` of source pixel `(x - xOffset, y - yOffset)` —
the BGR-style channel reversal of src/main.c:264. -/
theorem zfbv_C1_draw_pixel (fb : framebuffer) (x_offset y_offset : ℤ) (img : Image)
    (x y c : ℤ)
    (hbpp : 3 ≤ fb.bpp) (hib : img.bpp = 3)
    (hx1 : x_offset ≤ x) (hx2 : x < x_offset + img.width) (hx3 : 0 ≤ x) (hx4 : x < fb.width)
    (hy1 : y_offset ≤ y) (hy2 : y < y_offset + img.height) (hy3 : 0 ≤ y) (hy4 : y < fb.height)
    (hc0 : 0 ≤ c) (hc1 : c < img.bpp) :
    (framebuffer_draw_image fb x_offset y_offset img).buffer
        (y * fb.width * fb.bpp + x * fb.bpp + c) =
      getI img.data ((y - y_offset) * img.width * img.bpp +
        (x - x_offset) * img.bpp + img.bpp - 1 - c) := by
  simp only [framebuffer_draw_image]
  set xs := (if x_offset < 0 then 0 else x_offset) with hxs_def
  set ys := (if y_offset < 0 then 0 else y_offset) with hys_def
  set xe := (if fb.width < x_offset + img.width then fb.width else x_offset + img.width)
    with hxe_def
  set ye := (if fb.height < y_offset + img.height then fb.height else y_offset + img.height)
    with hye_def
  have hxsb : 0 ≤ xs ∧ xs ≤ x := by
    rw [hxs_def]
    split_ifs <;> omega
  have hysb : 0 ≤ ys ∧ ys ≤ y := by
    rw [hys_def]
    split_ifs <;> omega
  have hxeb : x < xe ∧ xe ≤ fb.width := by
    rw [hxe_def]
    split_ifs <;> omega
  have hyeb : y < ye ∧ ye ≤ fb.height := by
    rw [hye_def]
    split_ifs <;> omega
  rw [if_neg (by push_neg; omega), if_neg (by omega)]
  have hxe' : xe = xs + (((xe - xs).toNat : ℕ) : ℤ) := by omega
  have hye' : ye = ys + (((ye - ys).toNat : ℕ) : ℤ) := by omega
  rw [hxe', hye']
  have key := draw_y_loop_get fb img x_offset y_offset xs ys (by omega) (by omega)
    (by omega) ((ye - ys).toNat) fb.buffer ((y - ys).toNat) ((xe - xs).toNat)
    ((x - xs).toNat) c (by omega) (by omega) hc0 hc1 (by omega)
  have hi : ys + (((y - ys).toNat : ℕ) : ℤ) = y := by omega
  have hj : xs + (((x - xs).toNat : ℕ) : ℤ) = x := by omega
  rw [hi, hj] at key
  exact key

/-- Witness for C1: drawing the red pixel at offset `(1, 1)` writes the
device bytes of pixel `(1, 1)` in B, G, R order: `0, 0, 255`. -/
theorem zfbv_C1_draw_pixel_witness :
    (3 ≤ fbW.bpp ∧ imgRed.bpp = 3) ∧
    (framebuffer_draw_image fbW 1 1 imgRed).buffer (1 * fbW.width * fbW.bpp + 1 * fbW.bpp + 0)
      = 0 ∧
    (framebuffer_draw_image fbW 1 1 imgRed).buffer (1 * fbW.width * fbW.bpp + 1 * fbW.bpp + 1)
      = 0 ∧
    (framebuffer_draw_image fbW 1 1 imgRed).buffer (1 * fbW.width * fbW.bpp + 1 * fbW.bpp + 2)
      = 255 := by
  refine ⟨⟨by decide, by decide⟩, ?_, ?_, ?_⟩
  · rw [zfbv_C1_draw_pixel fbW 1 1 imgRed 1 1 0 (by decide) (by decide) (by decide)
      (by decide) (by decide) (by decide) (by decide) (by decide) (by decide) (by decide)
      (by decide) (by decide)]
    decide
  · rw [zfbv_C1_draw_pixel fbW 1 1 imgRed 1 1 1 (by decide) (by decide) (by decide)
      (by decide) (by decide) (by decide) (by decide) (by decide) (by decide) (by decide)
      (by decide) (by decide)]
    decide
  · rw [zfbv_C1_draw_pixel fbW 1 1 imgRed 1 1 2 (by decide) (by decide) (by decide)
      (by decide) (by decide) (by decide) (by decide) (by decide) (by decide) (by decide)
      (by decide) (by decide)]
    decide

/-- Claim C6: if the placed image rectangle does not intersect the device
rectangle, `framebuffer_draw_image` returns the framebuffer unchanged —
every shadow-buffer byte is untouched and no error is reported
(src/main.c:239-241 returns before anything is written or printed). -/
theorem zfbv_C6_draw_empty (fb : framebuffer) (x_offset y_offset : ℤ) (img : Image)
    (hempty : min (x_offset + img.width) fb.width ≤ max x_offset 0 ∨
      min (y_offset + img.height) fb.height ≤ max y_offset 0) :
    framebuffer_draw_image fb x_offset y_offset img = fb := by
  simp only [framebuffer_draw_image]
  rw [if_pos]
  rcases hempty with h | h
  · left
    split_ifs <;> omega
  · right
    split_ifs <;> omega

/-- Witness for C6: offset `deviceWidth + 10` to the right, buffer
unchanged. -/
theorem zfbv_C6_draw_empty_witness :
    min ((14 : ℤ) + imgRed.width) fbW.width ≤ max 14 0 ∧
    framebuffer_draw_image fbW 14 0 imgRed = fbW := by
  refine ⟨by decide, ?_⟩
  exact zfbv_C6_draw_empty fbW 14 0 imgRed (Or.inl (by decide))

/-- Claim C7: a successful `Image_resize_linear` returns exactly the
requested dimensions, and its pixel buffer holds exactly
`newWidth * newHeight * 3` bytes (src/main.c:305-309). -/
theorem zfbv_C7_resize_size (src : Image) (nw nh : ℤ) (hb : src.bpp = 3)
    (hw : 0 < nw) (hh : 0 < nh) :
    (Image_resize_linear src nw nh).width = nw ∧
    (Image_resize_linear src nw nh).height = nh ∧
    ((Image_resize_linear src nw nh).data.length : ℤ) = nw * nh * 3 := by
  refine ⟨rfl, rfl, ?_⟩
  show ((resize_y_loop src _ _ (nw * src.bpp) nw nh
    (List.replicate (nh * (nw * src.bpp)).toNat 0)).length : ℤ) = nw * nh * 3
  rw [resize_y_loop_length, List.length_replicate]
  rw [hb]
  have hnn : (0 : ℤ) ≤ nh * (nw * 3) := by positivity
  rw [Int.toNat_of_nonneg hnn]
  ring

/-- Witness for C7: a 2×2 source resized to 3×2 has 18 bytes. -/
theorem zfbv_C7_resize_size_witness :
    (Image_resize_linear ⟨2, 2, 3, 6, List.replicate 12 5⟩ 3 2).width = 3 ∧
    (Image_resize_linear ⟨2, 2, 3, 6, List.replicate 12 5⟩ 3 2).height = 2 ∧
    ((Image_resize_linear ⟨2, 2, 3, 6, List.replicate 12 5⟩ 3 2).data.length : ℤ) =
      3 * 2 * 3 :=
  zfbv_C7_resize_size ⟨2, 2, 3, 6, List.replicate 12 5⟩ 3 2 rfl (by decide) (by decide)

section LoopClaims

theorem rndQ_nonneg {q : ℚ} (h : 0 ≤ q) : 0 ≤ rndQ q := by
  rcases eq_or_lt_of_le h with h0 | hpos
  · rw [← h0, rndQ_zero]
  · rw [rndQ_of_pos hpos]
    exact rndQpos_nonneg hpos

/-- A scale of at least `0.1f` times a dimension of at least 10 truncates
to a positive pixel count. -/
theorem truncF_scaled_pos (w : ℤ) (sc : F32) (hw : 10 ≤ w)
    (hsc : c0_1.val ≤ sc.val) : 1 ≤ truncF (f32mul (i2f w) sc) := by
  have hc01 : (0:ℚ) < c0_1.val := by
    rw [c0_1_val]
    norm_num
  have hwv : (10:ℚ) ≤ (i2f w).val := by
    rw [val_i2f_nonneg (by omega)]
    have h10 : rndQ ((10:ℚ)) = (10:ℚ) := by
      have := rndQ_int_small (x := 10) (by omega) (by norm_num)
      push_cast at this
      exact this
    have hm := rndQ_mono_pos (q := (10:ℚ)) (r := (w:ℚ)) (by norm_num) (by exact_mod_cast hw)
    rw [h10] at hm
    exact hm
  have hscv : (0:ℚ) < sc.val := lt_of_lt_of_le hc01 hsc
  have hprod : (1:ℚ) ≤ (i2f w).val * sc.val := by
    have hmm : (10:ℚ) * c0_1.val ≤ (i2f w).val * sc.val :=
      mul_le_mul hwv hsc (le_of_lt hc01) (by linarith)
    rw [c0_1_val] at hmm
    have hnum : (1:ℚ) ≤ 10 * ((13421773 : ℚ) / 134217728) := by norm_num
    linarith
  have hm0 : 0 ≤ (i2f w).m := by
    apply F32.m_nonneg_of_val
    rw [val_i2f_nonneg (by omega)]
    apply rndQ_nonneg
    have : (0:ℤ) ≤ w := by omega
    exact_mod_cast this
  have hscm : 0 ≤ sc.m := F32.m_nonneg_of_val (le_of_lt hscv)
  have hval : (f32mul (i2f w) sc).val = rndQ ((i2f w).val * sc.val) :=
    val_f32mul_nonneg hm0 hscm
  have hge : (1:ℚ) ≤ (f32mul (i2f w) sc).val := by
    rw [hval]
    have h1 : rndQ ((1:ℚ)) = (1:ℚ) := by
      have := rndQ_int_small (x := 1) (by omega) (by norm_num)
      push_cast at this
      exact this
    have := rndQ_mono_pos (q := (1:ℚ)) (r := (i2f w).val * sc.val) one_pos hprod
    rw [h1] at this
    exact this
  have hmm : 0 ≤ (f32mul (i2f w) sc).m := F32.m_nonneg_of_val (by linarith)
  rw [truncF_eq_floor hmm]
  exact Int.le_floor.mpr (by exact_mod_cast hge)

/-- Claim C3 counterexample: with a 1×1 device and a 9×9 image, the very
first frame is drawn with `currentScale ≈ 0.089 < 0.1` — the initial
best-fit scale is not clamped before the first frame (src/main.c:68-103),
refuting the claim that `currentScale ∈ [0.1, 5.0]` holds in every
reachable state including the first frame. -/
theorem zfbv_C3_counterexample : (initState 1 1 img9).scale.val < 1 / 10 := by
  have h : (initState 1 1 img9).scale = ⟨11930465, -27⟩ := by decide
  rw [h, F32.val]
  norm_num

/-- Claim C3 (amended): after processing any non-quit keystroke, the
clamp at src/main.c:124-125 puts `currentScale` in `[0.1, 5.0]` (indeed
in `[0.1f, 5.0]` with `0.1f ≈ 0.10000000149`); only the initial frame's
scale can lie outside. -/
theorem zfbv_C3_scale_invariant (img : Image) (dflt : F32) (s : LoopSt) (ch : Char)
    (ok : Bool) (s' : LoopSt) (r : Option (ℤ × ℤ))
    (h : stepLoop img dflt s ch ok = some (s', r)) :
    1 / 10 ≤ s'.scale.val ∧ s'.scale.val ≤ 5 := by
  rw [stepLoop_scale img dflt s ch ok s' r h]
  have hb := clampScale_bounds (stepScale dflt s.scale ch)
  have hc : (1:ℚ)/10 ≤ c0_1.val := by
    rw [c0_1_val]
    norm_num
  exact ⟨le_trans hc hb.1, hb.2⟩

set_option maxRecDepth 8192 in
/-- Witness for the amended C3. -/
theorem zfbv_C3_scale_invariant_witness :
    stepLoop img4 (initScale 8 8 img4) (initState 8 8 img4) 'x' true =
      some (initState 8 8 img4, none) ∧
    (1 / 10 ≤ (initState 8 8 img4).scale.val ∧ (initState 8 8 img4).scale.val ≤ 5) := by
  have hstep : stepLoop img4 (initScale 8 8 img4) (initState 8 8 img4) 'x' true =
      some (initState 8 8 img4, none) := by decide
  exact ⟨hstep, zfbv_C3_scale_invariant img4 (initScale 8 8 img4) (initState 8 8 img4)
    'x' true (initState 8 8 img4) none hstep⟩

end LoopClaims

section LoopClaims2

/-- Claim C4 counterexample: with a 1×1 device and a 9×9 image the
initial scale `baseScale ≈ 0.089` lies below `0.1f`, so pressing `r`
(after the empty `+`/`-` sequence) yields the clamped `0.1f`, which is
not bit-for-bit equal to `baseScale` — the reset value passes through
the clamp of src/main.c:124-125. -/
theorem zfbv_C4_counterexample :
    (stepLoop img9 (initScale 1 1 img9) (initState 1 1 img9) 'r' true).map
        (fun p => p.1.scale) = some c0_1 ∧
      c0_1 ≠ initScale 1 1 img9 := by
  constructor
  · decide
  · decide

/-- Claim C4 (amended): provided the initial `baseScale` lies inside the
clamp range `[0.1f, 5.0]`, pressing `r` after any sequence of `+`/`-`
keystrokes restores `currentScale` bit-for-bit to `baseScale`
(src/main.c:108-110 and 124-125). -/
theorem zfbv_C4_reset (fbWidth fbHeight : ℤ) (img : Image) (keys : List (Char × Bool))
    (s : LoopSt) (ok : Bool) (s' : LoopSt) (r : Option (ℤ × ℤ))
    (hkeys : ∀ k ∈ keys, k.1 = '+' ∨ k.1 = '-')
    (hlo : c0_1.val ≤ (initScale fbWidth fbHeight img).val)
    (hhi : (initScale fbWidth fbHeight img).val ≤ 5)
    (hrun : runSteps img (initScale fbWidth fbHeight img) (initState fbWidth fbHeight img)
      keys = some s)
    (hstep : stepLoop img (initScale fbWidth fbHeight img) s 'r' ok = some (s', r)) :
    s'.scale = initScale fbWidth fbHeight img := by
  rw [stepLoop_scale img (initScale fbWidth fbHeight img) s 'r' ok s' r hstep]
  rw [stepScale, if_pos rfl]
  have h1 : ¬ f32blt (initScale fbWidth fbHeight img) c0_1 = true := by
    intro hc
    have := (f32blt_iff _ _).mp hc
    linarith
  have h2 : ¬ f32blt c5_0 (initScale fbWidth fbHeight img) = true := by
    intro hc
    have := (f32blt_iff _ _).mp hc
    rw [c5_0_val] at this
    linarith
  simp only [clampScale]
  rw [if_neg h1, if_neg h2]

set_option maxRecDepth 8192 in
/-- Witness for the amended C4. -/
theorem zfbv_C4_reset_witness :
    (∀ k ∈ ([] : List (Char × Bool)), k.1 = '+' ∨ k.1 = '-') ∧
    c0_1.val ≤ (initScale 8 8 img4).val ∧ (initScale 8 8 img4).val ≤ 5 ∧
    runSteps img4 (initScale 8 8 img4) (initState 8 8 img4) [] = some (initState 8 8 img4) ∧
    stepLoop img4 (initScale 8 8 img4) (initState 8 8 img4) 'r' true =
      some (initState 8 8 img4, none) ∧
    (initState 8 8 img4).scale = initScale 8 8 img4 := by
  have hd : initScale 8 8 img4 = ⟨13421773, -23⟩ := by decide
  have hlo : c0_1.val ≤ (initScale 8 8 img4).val := by
    rw [hd, c0_1_val, F32.val]
    norm_num
  have hhi : (initScale 8 8 img4).val ≤ 5 := by
    rw [hd, F32.val]
    norm_num
  have hstep : stepLoop img4 (initScale 8 8 img4) (initState 8 8 img4) 'r' true =
      some (initState 8 8 img4, none) := by decide
  exact ⟨by simp, hlo, hhi, rfl, hstep,
    zfbv_C4_reset 8 8 img4 [] (initState 8 8 img4) true (initState 8 8 img4) none
      (by simp) hlo hhi rfl hstep⟩

set_option maxRecDepth 8192 in
/-- Claim C8 counterexample: after an unrecognized keystroke (`x`) whose
clamped scale equals the previous frame's scale, the loop does `continue`
— but the top of the `while (1)` body (src/main.c:98-103) clears, draws
and flushes again before the next `getchar`.  The trace below shows a
second `Ev.draw` between `Ev.key 'x'` and `Ev.key 'q'`, refuting "never
redraws in that iteration and goes straight back to waiting". -/
theorem zfbv_C8_counterexample :
    loopRun img4 (initScale 8 8 img4) (initState 8 8 img4) [('x', true), ('q', true)] =
      [Ev.draw 6 6 (initScale 8 8 img4), Ev.key 'x',
       Ev.draw 6 6 (initScale 8 8 img4), Ev.key 'q'] := by
  decide

/-- Claim C8 (amended): if the clamped scale equals the previous frame's
scale, the iteration performs no resampling (no `Ev.resizeCall`, and the
displayed image and `prev_scale` are kept), but the loop still redraws
the unchanged frame at the top of the next iteration before blocking on
the next keystroke (the `continue` at src/main.c:127 jumps back to
src/main.c:98). -/
theorem zfbv_C8_skip (img : Image) (dflt : F32) (s : LoopSt) (ch : Char) (ok : Bool)
    (rest : List (Char × Bool)) (hq : ch ≠ 'q')
    (hskip : f32beq (clampScale (stepScale dflt s.scale ch)) s.prevScale = true) :
    loopRun img dflt s ((ch, ok) :: rest) =
      Ev.draw s.resized.width s.resized.height s.scale :: Ev.key ch ::
        loopRun img dflt { s with scale := clampScale (stepScale dflt s.scale ch) } rest := by
  rw [loopRun]
  simp only [stepLoop, if_neg hq, hskip, if_true]

set_option maxRecDepth 8192 in
/-- Witness for the amended C8. -/
theorem zfbv_C8_skip_witness :
    ('x' ≠ 'q') ∧
    f32beq (clampScale (stepScale (initScale 8 8 img4) (initState 8 8 img4).scale 'x'))
      (initState 8 8 img4).prevScale = true ∧
    loopRun img4 (initScale 8 8 img4) (initState 8 8 img4) [('x', true)] =
      Ev.draw (initState 8 8 img4).resized.width (initState 8 8 img4).resized.height
          (initState 8 8 img4).scale :: Ev.key 'x' ::
        loopRun img4 (initScale 8 8 img4)
          { initState 8 8 img4 with
            scale := clampScale (stepScale (initScale 8 8 img4)
              (initState 8 8 img4).scale 'x') } [] := by
  have hskip : f32beq (clampScale (stepScale (initScale 8 8 img4)
      (initState 8 8 img4).scale 'x')) (initState 8 8 img4).prevScale = true := by decide
  exact ⟨by decide, hskip,
    zfbv_C8_skip img4 (initScale 8 8 img4) (initState 8 8 img4) 'x' true [] (by decide) hskip⟩

end LoopClaims2

section LoopClaims3

/-- Claim C9: when the in-loop resample attempt fails (allocation failure,
`new_resized == NULL` at src/main.c:135), the previously displayed image
is kept as the displayed image (not replaced, not freed) and the loop
continues (`some` state, no break); only `scale`/`prev_scale` advance, so
a later keystroke triggers a fresh attempt. -/
theorem zfbv_C9_alloc_failure (img : Image) (dflt : F32) (s : LoopSt) (ch : Char)
    (hq : ch ≠ 'q')
    (hch : f32beq (clampScale (stepScale dflt s.scale ch)) s.prevScale = false) :
    stepLoop img dflt s ch false =
      some (⟨clampScale (stepScale dflt s.scale ch),
             clampScale (stepScale dflt s.scale ch), s.resized⟩,
        some (truncF (f32mul (i2f img.width) (clampScale (stepScale dflt s.scale ch))),
              truncF (f32mul (i2f img.height) (clampScale (stepScale dflt s.scale ch))))) := by
  simp only [stepLoop, if_neg hq, hch, Bool.false_eq_true, if_false]

/-- The successful-resize branch of the keystroke handler, used by the
witnesses below. -/
theorem stepLoop_resize_eq (img : Image) (dflt : F32) (s : LoopSt) (ch : Char)
    (hq : ch ≠ 'q')
    (hch : f32beq (clampScale (stepScale dflt s.scale ch)) s.prevScale = false) :
    stepLoop img dflt s ch true =
      some (⟨clampScale (stepScale dflt s.scale ch),
             clampScale (stepScale dflt s.scale ch),
             Image_resize_linear img
               (truncF (f32mul (i2f img.width) (clampScale (stepScale dflt s.scale ch))))
               (truncF (f32mul (i2f img.height) (clampScale (stepScale dflt s.scale ch))))⟩,
        some (truncF (f32mul (i2f img.width) (clampScale (stepScale dflt s.scale ch))),
              truncF (f32mul (i2f img.height) (clampScale (stepScale dflt s.scale ch))))) := by
  simp only [stepLoop, if_neg hq, hch, Bool.false_eq_true, if_false, if_true]

/-- Witness for C9. -/
theorem zfbv_C9_alloc_failure_witness :
    ('+' ≠ 'q') ∧
    f32beq (clampScale (stepScale (initScale 8 8 img4) (initState 8 8 img4).scale '+'))
      (initState 8 8 img4).prevScale = false ∧
    stepLoop img4 (initScale 8 8 img4) (initState 8 8 img4) '+' false =
      some (⟨clampScale (stepScale (initScale 8 8 img4) (initState 8 8 img4).scale '+'),
             clampScale (stepScale (initScale 8 8 img4) (initState 8 8 img4).scale '+'),
             (initState 8 8 img4).resized⟩,
        some (truncF (f32mul (i2f img4.width)
                (clampScale (stepScale (initScale 8 8 img4) (initState 8 8 img4).scale '+'))),
              truncF (f32mul (i2f img4.height)
                (clampScale (stepScale (initScale 8 8 img4)
                  (initState 8 8 img4).scale '+'))))) := by
  have hch : f32beq (clampScale (stepScale (initScale 8 8 img4)
      (initState 8 8 img4).scale '+')) (initState 8 8 img4).prevScale = false := by decide
  exact ⟨by decide, hch,
    zfbv_C9_alloc_failure img4 (initScale 8 8 img4) (initState 8 8 img4) '+'
      (by decide) hch⟩

/-- Claim C5 counterexample: with a 1×1 device and a 9×9 image, the
unclamped initial scale is ≈ 0.089; one `-` keystroke clamps the scale to
exactly `0.1f`, the skip test fails (`0.1f ≠` previous scale), and the
loop calls `Image_resize_linear` with target width and height
`(int)(9 * 0.1f) = 0` — the interactive path does call resize with a
non-positive target, refuting the claim. -/
theorem zfbv_C5_counterexample :
    (stepLoop img9 (initScale 1 1 img9) (initState 1 1 img9) '-' true).map Prod.snd =
      some (some (0, 0)) := by
  decide

/-- Claim C5 (amended): for images at least 10 pixels wide and tall, the
clamp `scale ≥ 0.1f` guarantees that every in-loop resize call has
positive target dimensions (`(int)(img->width * scale) ≥ 1`); for
narrower or shorter images (width or height ≤ 9) a scale of `0.1f`
truncates to 0, as the counterexample shows. -/
theorem zfbv_C5_positive_dims (img : Image) (dflt : F32) (s : LoopSt) (ch : Char)
    (ok : Bool) (s' : LoopSt) (nw nh : ℤ)
    (hw : 10 ≤ img.width) (hh : 10 ≤ img.height)
    (hstep : stepLoop img dflt s ch ok = some (s', some (nw, nh))) :
    1 ≤ nw ∧ 1 ≤ nh := by
  rw [stepLoop] at hstep
  by_cases hq : ch = 'q'
  · rw [if_pos hq] at hstep
    exact absurd hstep (by simp)
  · rw [if_neg hq] at hstep
    simp only at hstep
    by_cases hbeq : f32beq (clampScale (stepScale dflt s.scale ch)) s.prevScale = true
    · rw [if_pos hbeq] at hstep
      rw [Option.some.injEq, Prod.mk.injEq] at hstep
      exact absurd hstep.2 (by simp)
    · rw [if_neg hbeq] at hstep
      simp only [Option.some.injEq, Prod.mk.injEq] at hstep
      obtain ⟨-, hnw, hnh⟩ := hstep
      rw [← hnw, ← hnh]
      constructor
      · exact truncF_scaled_pos img.width _ hw (clampScale_bounds _).1
      · exact truncF_scaled_pos img.height _ hh (clampScale_bounds _).1

set_option maxRecDepth 8192 in
/-- Witness for the amended C5. -/
theorem zfbv_C5_positive_dims_witness :
    (10 : ℤ) ≤ img12.width ∧ (10 : ℤ) ≤ img12.height ∧
    stepLoop img12 (initScale 8 8 img12) (initState 8 8 img12) '+' true =
      some (⟨clampScale (stepScale (initScale 8 8 img12) (initState 8 8 img12).scale '+'),
             clampScale (stepScale (initScale 8 8 img12) (initState 8 8 img12).scale '+'),
             Image_resize_linear img12
               (truncF (f32mul (i2f img12.width)
                 (clampScale (stepScale (initScale 8 8 img12) (initState 8 8 img12).scale '+'))))
               (truncF (f32mul (i2f img12.height)
                 (clampScale (stepScale (initScale 8 8 img12)
                   (initState 8 8 img12).scale '+'))))⟩,
        some (truncF (f32mul (i2f img12.width)
                (clampScale (stepScale (initScale 8 8 img12) (initState 8 8 img12).scale '+'))),
              truncF (f32mul (i2f img12.height)
                (clampScale (stepScale (initScale 8 8 img12)
                  (initState 8 8 img12).scale '+'))))) ∧
    1 ≤ truncF (f32mul (i2f img12.width)
          (clampScale (stepScale (initScale 8 8 img12) (initState 8 8 img12).scale '+'))) ∧
    1 ≤ truncF (f32mul (i2f img12.height)
          (clampScale (stepScale (initScale 8 8 img12) (initState 8 8 img12).scale '+'))) := by
  have hch : f32beq (clampScale (stepScale (initScale 8 8 img12)
      (initState 8 8 img12).scale '+')) (initState 8 8 img12).prevScale = false := by decide
  have hstep := stepLoop_resize_eq img12 (initScale 8 8 img12) (initState 8 8 img12) '+'
    (by decide) hch
  have hpos := zfbv_C5_positive_dims img12 (initScale 8 8 img12) (initState 8 8 img12)
    '+' true _ _ _ (by decide) (by decide) hstep
  exact ⟨by decide, by decide, hstep, hpos.1, hpos.2⟩

end LoopClaims3

section IndexHelpers

theorem getI_replicate (n a : ℕ) (t : ℤ) :
    getI (List.replicate n a) t = if 0 ≤ t ∧ t < (n : ℤ) then a else 0 := by
  rw [getI]
  by_cases ht : 0 ≤ t
  · rw [if_pos ht]
    by_cases hlt : t < (n : ℤ)
    · rw [if_pos ⟨ht, hlt⟩]
      have h : t.toNat < (List.replicate n a).length := by
        rw [List.length_replicate]; omega
      rw [List.getD_eq_getElem _ _ h]
      exact List.getElem_replicate _ _
    · rw [if_neg (fun hc => hlt hc.2)]
      apply List.getD_eq_default
      rw [List.length_replicate]; omega
  · rw [if_neg ht, if_neg (fun hc => ht hc.1)]

theorem getI_natCast (l : List ℕ) (tn : ℕ) (h : tn < l.length) :
    getI l ((tn : ℕ) : ℤ) = l.get ⟨tn, h⟩ := by
  rw [getI, if_pos (by exact_mod_cast Nat.zero_le tn)]
  have ht : ((tn : ℕ) : ℤ).toNat = tn := by omega
  rw [ht, List.getD_eq_getElem l 0 h]
  rfl

theorem Image_resize_linear_length (src : Image) (nw nh : ℤ) :
    (Image_resize_linear src nw nh).data.length = (nh * (nw * src.bpp)).toNat := by
  show (resize_y_loop src _ _ (nw * src.bpp) nw nh
    (List.replicate (nh * (nw * src.bpp)).toNat 0)).length = _
  rw [resize_y_loop_length, List.length_replicate]

/-- When the new width equals the source width (and the width is exactly
representable), the float ratio is exactly `1.0f` and the truncated source
index is exactly the destination index. -/
theorem truncF_ratio_one (w x : ℤ) (hw2 : w ≤ 2 ^ 24) (hx0 : 0 ≤ x) (hx1 : x < w) :
    truncF (f32mul (i2f x) (f32div (i2f w) (i2f w))) = x := by
  have hw1 : 1 ≤ w := by omega
  have hwv : (i2f w).val = (w : ℚ) := val_i2f_small (by omega) hw2
  have hxv : (i2f x).val = (x : ℚ) := val_i2f_small hx0 (by omega)
  have hwm : 0 < (i2f w).m := F32.m_pos_of_val (by
    rw [hwv]; exact_mod_cast (by omega : (0:ℤ) < w))
  have hxm : 0 ≤ (i2f x).m := F32.m_nonneg_of_val (by
    rw [hxv]; exact_mod_cast hx0)
  have hrv : (f32div (i2f w) (i2f w)).val = 1 := by
    rw [val_f32div_nonneg (le_of_lt hwm) hwm, hwv]
    rw [div_self (by exact_mod_cast (by omega : w ≠ 0))]
    have h1 := rndQ_int_small (x := 1) (by omega) (by omega)
    simpa using h1
  have hrm : 0 ≤ (f32div (i2f w) (i2f w)).m :=
    F32.m_nonneg_of_val (by rw [hrv]; norm_num)
  have hpv : (f32mul (i2f x) (f32div (i2f w) (i2f w))).val = (x : ℚ) := by
    rw [val_f32mul_nonneg hxm hrm, hxv, hrv, mul_one]
    exact rndQ_int_small hx0 (by omega)
  have hpm : 0 ≤ (f32mul (i2f x) (f32div (i2f w) (i2f w))).m :=
    F32.m_nonneg_of_val (by rw [hpv]; exact_mod_cast hx0)
  rw [truncF_eq_floor hpm, hpv, Int.floor_intCast]

theorem index_decomp (W B H t : ℤ) (hW : 0 < W) (hB : 0 < B) (h0 : 0 ≤ t)
    (ht : t < H * (W * B)) :
    ∃ y x c : ℤ, 0 ≤ y ∧ y < H ∧ 0 ≤ x ∧ x < W ∧ 0 ≤ c ∧ c < B ∧
      t = y * (W * B) + x * B + c := by
  have hWB : (0:ℤ) < W * B := mul_pos hW hB
  refine ⟨t / (W * B), (t % (W * B)) / B, (t % (W * B)) % B, ?_, ?_, ?_, ?_, ?_, ?_, ?_⟩
  · exact Int.ediv_nonneg h0 (le_of_lt hWB)
  · exact (Int.ediv_lt_iff_lt_mul hWB).mpr ht
  · exact Int.ediv_nonneg (Int.emod_nonneg _ (ne_of_gt hWB)) (le_of_lt hB)
  · exact (Int.ediv_lt_iff_lt_mul hB).mpr (Int.emod_lt_of_pos _ hWB)
  · exact Int.emod_nonneg _ (ne_of_gt hB)
  · exact Int.emod_lt_of_pos _ hB
  · have e1 := Int.ediv_add_emod t (W * B)
    have e2 := Int.ediv_add_emod (t % (W * B)) B
    linarith [mul_comm (W * B) (t / (W * B)), mul_comm B (t % (W * B) / B)]

end IndexHelpers

section RatioBounds

/-- Float error analysis for the resize index: for a source dimension
`w ≤ 2^24` and a target dimension `W ≤ 2^23`, the truncated index
`(int)(x * ((float) w / (float) W))` stays within `[0, w)` for every
destination coordinate `0 ≤ x < W`. -/
theorem srcIdx_bounds (w W x : ℤ) (hw1 : 1 ≤ w) (hw2 : w ≤ 2 ^ 24)
    (hW1 : 1 ≤ W) (hW2 : W ≤ 2 ^ 23) (hx0 : 0 ≤ x) (hx1 : x < W) :
    0 ≤ truncF (f32mul (i2f x) (f32div (i2f w) (i2f W))) ∧
    truncF (f32mul (i2f x) (f32div (i2f w) (i2f W))) < w := by
  have hwv : (i2f w).val = (w : ℚ) := val_i2f_small (by omega) hw2
  have hWv : (i2f W).val = (W : ℚ) := val_i2f_small (by omega) (by omega)
  have hwm : 0 ≤ (i2f w).m := F32.m_nonneg_of_val (by
    rw [hwv]; exact_mod_cast (by omega : (0:ℤ) ≤ w))
  have hWm : 0 < (i2f W).m := F32.m_pos_of_val (by
    rw [hWv]; exact_mod_cast (by omega : (0:ℤ) < W))
  have hwq : (0:ℚ) < (w:ℚ) := by exact_mod_cast (by omega : (0:ℤ) < w)
  have hWq : (0:ℚ) < (W:ℚ) := by exact_mod_cast (by omega : (0:ℤ) < W)
  have hWle : (W:ℚ) ≤ 8388608 := by exact_mod_cast (by omega : W ≤ 8388608)
  have hwle : (1:ℚ) ≤ (w:ℚ) := by exact_mod_cast hw1
  have hq : (0:ℚ) < (w:ℚ) / (W:ℚ) := div_pos hwq hWq
  have hrv : (f32div (i2f w) (i2f W)).val = rndQ ((w:ℚ) / (W:ℚ)) := by
    rw [val_f32div_nonneg hwm hWm, hwv, hWv]
  have hq23 : (1:ℚ) / 8388608 ≤ (w:ℚ) / (W:ℚ) :=
    div_le_div (le_of_lt hwq) hwle hWq hWle
  have hlow : (2:ℚ) ^ (-126 : ℤ) ≤ (w:ℚ) / (W:ℚ) := by
    have h3 : (2:ℚ) ^ (-126:ℤ) ≤ (1:ℚ) / 8388608 := by norm_num
    linarith
  have hrel := rndQpos_rel hlow
  have hrQ : rndQ ((w:ℚ)/(W:ℚ)) = rndQpos ((w:ℚ)/(W:ℚ)) := rndQ_of_pos hq
  have e24 : ((2:ℚ)^(-24:ℤ)) = 1/16777216 := by norm_num
  have hrlo : (w:ℚ)/(W:ℚ) * (1 - 1/16777216) ≤ (f32div (i2f w) (i2f W)).val := by
    rw [hrv, hrQ]
    have h := hrel.1
    rw [e24] at h
    exact h
  have hrhi : (f32div (i2f w) (i2f W)).val ≤ (w:ℚ)/(W:ℚ) * (1 + 1/16777216) := by
    rw [hrv, hrQ]
    have h := hrel.2
    rw [e24] at h
    exact h
  have hrpos : 0 < (f32div (i2f w) (i2f W)).val := by linarith
  have hrm : 0 ≤ (f32div (i2f w) (i2f W)).m := F32.m_nonneg_of_val (le_of_lt hrpos)
  have hxv : (i2f x).val = (x:ℚ) := val_i2f_small hx0 (by omega)
  have hxm : 0 ≤ (i2f x).m := F32.m_nonneg_of_val (by rw [hxv]; exact_mod_cast hx0)
  have hpv : (f32mul (i2f x) (f32div (i2f w) (i2f W))).val
      = rndQ ((x:ℚ) * (f32div (i2f w) (i2f W)).val) := by
    rw [val_f32mul_nonneg hxm hrm, hxv]
  have hxq : (0:ℚ) ≤ (x:ℚ) := by exact_mod_cast hx0
  have hpnn : 0 ≤ (f32mul (i2f x) (f32div (i2f w) (i2f W))).val := by
    rw [hpv]
    exact rndQ_nonneg (mul_nonneg hxq (le_of_lt hrpos))
  have hpm : 0 ≤ (f32mul (i2f x) (f32div (i2f w) (i2f W))).m :=
    F32.m_nonneg_of_val hpnn
  rw [truncF_eq_floor hpm]
  refine ⟨Int.floor_nonneg.mpr hpnn, ?_⟩
  rw [Int.floor_lt, hpv]
  rcases eq_or_lt_of_le hx0 with hx00 | hxpos
  · rw [← hx00]
    have h0 : ((0:ℤ):ℚ) * (f32div (i2f w) (i2f W)).val = 0 := by push_cast; ring
    rw [h0, rndQ_zero]
    exact hwq
  · have hx1q : (1:ℚ) ≤ (x:ℚ) := by exact_mod_cast hxpos
    have hpq : (0:ℚ) < (x:ℚ) * (f32div (i2f w) (i2f W)).val :=
      mul_pos (by linarith) hrpos
    have hpnorm : (2:ℚ)^(-126:ℤ) ≤ (x:ℚ) * (f32div (i2f w) (i2f W)).val := by
      have hr126 : (1:ℚ)/85070591730234615865843651857942052864 ≤
          (f32div (i2f w) (i2f W)).val := by linarith
      have hstep : (f32div (i2f w) (i2f W)).val ≤
          (x:ℚ) * (f32div (i2f w) (i2f W)).val := by
        nlinarith [mul_nonneg (show (0:ℚ) ≤ (x:ℚ) - 1 by linarith)
          (le_of_lt hrpos)]
      have e126 : ((2:ℚ)^(-126:ℤ)) = 1/85070591730234615865843651857942052864 := by
        norm_num
      rw [e126]
      linarith
    have hprel := (rndQpos_rel hpnorm).2
    rw [e24] at hprel
    rw [rndQ_of_pos hpq]
    have hxW : (x:ℚ) ≤ (W:ℚ) - 1 := by exact_mod_cast (by omega : x ≤ W - 1)
    have hs1 : (x:ℚ) * (f32div (i2f w) (i2f W)).val ≤
        ((W:ℚ)-1) * ((w:ℚ)/(W:ℚ) * (1 + 1/16777216)) :=
      mul_le_mul hxW hrhi (le_of_lt hrpos) (by linarith)
    have hWinv : (1:ℚ)/8388608 ≤ 1/(W:ℚ) := one_div_le_one_div_of_le hWq hWle
    have hs2 : ((W:ℚ)-1) * ((w:ℚ)/(W:ℚ)) ≤ (1 - (1:ℚ)/8388608) * (w:ℚ) := by
      have e : ((W:ℚ)-1) * ((w:ℚ)/(W:ℚ)) = (1 - 1/(W:ℚ)) * (w:ℚ) := by
        field_simp
      rw [e]
      apply mul_le_mul_of_nonneg_right _ (le_of_lt hwq)
      linarith
    have hs2' := mul_le_mul_of_nonneg_right hs2
      (show (0:ℚ) ≤ 1 + 1/16777216 by norm_num)
    have hB2 : (x:ℚ) * (f32div (i2f w) (i2f W)).val ≤
        (1-(1:ℚ)/8388608) * (w:ℚ) * (1 + 1/16777216) := by
      linarith [hs1, hs2']
    have hB2' := mul_le_mul_of_nonneg_right hB2
      (show (0:ℚ) ≤ 1 + 1/16777216 by norm_num)
    have hfin : rndQpos ((x:ℚ) * (f32div (i2f w) (i2f W)).val) ≤
        (1-(1:ℚ)/8388608) * (w:ℚ) * (1 + 1/16777216) * (1 + 1/16777216) := by
      linarith [hprel, hB2']
    linarith [hfin, hwq]

end RatioBounds

section ClaimC2

/-- Claim C2 (amended): for every destination pixel `(x, y)` and channel
`c`, `Image_resize_linear` reads the source byte at the binary32-computed
index `(int)(x * ((float) src->width / (float) new_width))` (and
similarly for `y`) — which can differ from the exact rational
`floor(x * src.width / newWidth)` — and, provided the source dimensions
are at most `2^24` and the destination dimensions at most `2^23`, these
truncated indices always lie within `[0, src.width)` × `[0, src.height)`,
so every read of the source pixel buffer is in bounds. -/
theorem zfbv_C2_resize_reads (src : Image) (nw nh x y c : ℤ) (hb : 0 < src.bpp)
    (hw1 : 1 ≤ src.width) (hw2 : src.width ≤ 2 ^ 24)
    (hh1 : 1 ≤ src.height) (hh2 : src.height ≤ 2 ^ 24)
    (hnw1 : 1 ≤ nw) (hnw2 : nw ≤ 2 ^ 23)
    (hnh1 : 1 ≤ nh) (hnh2 : nh ≤ 2 ^ 23)
    (hx0 : 0 ≤ x) (hx1 : x < nw) (hy0 : 0 ≤ y) (hy1 : y < nh)
    (hc0 : 0 ≤ c) (hc1 : c < src.bpp) :
    getI (Image_resize_linear src nw nh).data (y * (nw * src.bpp) + x * src.bpp + c) =
      getI src.data
        (truncF (f32mul (i2f y) (f32div (i2f src.height) (i2f nh))) * src.stride +
         truncF (f32mul (i2f x) (f32div (i2f src.width) (i2f nw))) * src.bpp + c) ∧
    0 ≤ truncF (f32mul (i2f x) (f32div (i2f src.width) (i2f nw))) ∧
    truncF (f32mul (i2f x) (f32div (i2f src.width) (i2f nw))) < src.width ∧
    0 ≤ truncF (f32mul (i2f y) (f32div (i2f src.height) (i2f nh))) ∧
    truncF (f32mul (i2f y) (f32div (i2f src.height) (i2f nh))) < src.height :=
  ⟨Image_resize_linear_get src nw nh hb x y c hx0 hx1 hy0 hy1 hc0 hc1,
   (srcIdx_bounds src.width nw x hw1 hw2 hnw1 hnw2 hx0 hx1).1,
   (srcIdx_bounds src.width nw x hw1 hw2 hnw1 hnw2 hx0 hx1).2,
   (srcIdx_bounds src.height nh y hh1 hh2 hnh1 hnh2 hy0 hy1).1,
   (srcIdx_bounds src.height nh y hh1 hh2 hnh1 hnh2 hy0 hy1).2⟩

/-- Witness for the amended C2 on a 26×1 source resized to 22×1 at
destination pixel `x = 11`. -/
theorem zfbv_C2_resize_reads_witness :
    ((0:ℤ) < src26.bpp ∧ 1 ≤ src26.width ∧ src26.width ≤ 2 ^ 24 ∧
      1 ≤ src26.height ∧ src26.height ≤ 2 ^ 24) ∧
    (getI (Image_resize_linear src26 22 1).data
        (0 * (22 * src26.bpp) + 11 * src26.bpp + 0) =
      getI src26.data
        (truncF (f32mul (i2f 0) (f32div (i2f src26.height) (i2f 1))) * src26.stride +
         truncF (f32mul (i2f 11) (f32div (i2f src26.width) (i2f 22))) * src26.bpp + 0) ∧
     0 ≤ truncF (f32mul (i2f 11) (f32div (i2f src26.width) (i2f 22))) ∧
     truncF (f32mul (i2f 11) (f32div (i2f src26.width) (i2f 22))) < src26.width ∧
     0 ≤ truncF (f32mul (i2f 0) (f32div (i2f src26.height) (i2f 1))) ∧
     truncF (f32mul (i2f 0) (f32div (i2f src26.height) (i2f 1))) < src26.height) :=
  ⟨⟨by decide, by decide, by decide, by decide, by decide⟩,
   zfbv_C2_resize_reads src26 22 1 11 0 0 (by decide) (by decide) (by decide)
     (by decide) (by decide) (by decide) (by decide) (by decide) (by decide)
     (by decide) (by decide) (by decide) (by decide) (by decide) (by decide)⟩

set_option maxRecDepth 8192 in
/-- Claim C2 counterexample: for a 26-pixel-wide source resized to 22
pixels, destination pixel `x = 11` reads source pixel
`(int)(11 * (26.0f / 22.0f)) = 12` (byte 36 of the ramp image), not the
exactly computed `floor(11 * 26 / 22) = 13` (byte 39): the float ratio
`26.0f / 22.0f` rounds below `26/22` and the product `11 * ratio` rounds
to just under 13. -/
theorem zfbv_C2_counterexample :
    getI (Image_resize_linear src26 22 1).data (0 * (22 * 3) + 11 * 3 + 0) ≠
      getI src26.data ((0 * 1 / 1) * src26.stride + (11 * 26 / 22) * src26.bpp + 0) := by
  decide

end ClaimC2

section ClaimC10

/-- Claim C10 counterexample: for a source image 16777220 = 2^24 + 4
pixels wide, resizing to the source's own dimensions is not the identity:
`(float) 16777219` rounds up to `16777220.0f`, the ratio is exactly
`1.0f`, so destination pixel 16777219 reads source pixel 16777220 — one
past the end of the source buffer (undefined behaviour in C, a zero read
in the model), not pixel 16777219. -/
theorem zfbv_C10_counterexample :
    (Image_resize_linear srcBig 16777220 1).data ≠ srcBig.data := by
  intro hEq
  have h := Image_resize_linear_get srcBig 16777220 1 (by decide)
    16777219 0 0 (by decide) (by decide) (by decide) (by decide) (by decide) (by decide)
  have htx : truncF (f32mul (i2f 16777219) (f32div (i2f srcBig.width) (i2f 16777220))) =
      16777220 := by decide
  have hty : truncF (f32mul (i2f 0) (f32div (i2f srcBig.height) (i2f 1))) = 0 := by decide
  rw [hEq, htx, hty] at h
  have hbpp : srcBig.bpp = 3 := rfl
  have hstr : srcBig.stride = 50331660 := rfl
  have hdata : srcBig.data = List.replicate 50331660 7 := rfl
  rw [hbpp, hstr, hdata, getI_replicate, getI_replicate] at h
  norm_num at h

/-- Claim C10 (amended): for a well-formed source image (stride
`width * bpp`, buffer of `height * stride` bytes) whose width and height
are at most `2^24` — so that every coordinate and both dimensions are
exactly representable in binary32 and the ratio rounds to exactly `1.0f`
— resizing to the source's own dimensions yields a pixel buffer
byte-for-byte identical to the source's. -/
theorem zfbv_C10_identity (src : Image) (hb : 0 < src.bpp)
    (hst : src.stride = src.width * src.bpp)
    (hlen : (src.data.length : ℤ) = src.height * src.stride)
    (hw1 : 1 ≤ src.width) (hw2 : src.width ≤ 2 ^ 24)
    (hh1 : 1 ≤ src.height) (hh2 : src.height ≤ 2 ^ 24) :
    (Image_resize_linear src src.width src.height).data = src.data := by
  have hlen2 : (Image_resize_linear src src.width src.height).data.length
      = src.data.length := by
    rw [Image_resize_linear_length, ← hst, ← hlen]
    simp
  apply List.ext_get hlen2
  intro tn h1 h2
  have h1' := h1
  rw [Image_resize_linear_length] at h1'
  have htn : (tn : ℤ) < src.height * (src.width * src.bpp) := Int.lt_toNat.mp h1'
  obtain ⟨y, x, c, hy0, hy1, hx0, hx1, hc0, hc1, hdec⟩ :=
    index_decomp src.width src.bpp src.height (tn : ℤ) (by omega) hb
      (Int.natCast_nonneg tn) htn
  rw [← getI_natCast _ tn h1, ← getI_natCast _ tn h2, hdec,
    Image_resize_linear_get src src.width src.height hb x y c hx0 hx1 hy0 hy1 hc0 hc1,
    truncF_ratio_one src.width x hw2 hx0 hx1,
    truncF_ratio_one src.height y hh2 hy0 hy1, hst]

/-- Witness for the amended C10: a 4×4 image resized to 4×4 keeps its
bytes. -/
theorem zfbv_C10_identity_witness :
    ((0:ℤ) < img4.bpp ∧ img4.stride = img4.width * img4.bpp ∧
      (img4.data.length : ℤ) = img4.height * img4.stride ∧
      (1:ℤ) ≤ img4.width ∧ img4.width ≤ 2 ^ 24 ∧
      (1:ℤ) ≤ img4.height ∧ img4.height ≤ 2 ^ 24) ∧
    (Image_resize_linear img4 img4.width img4.height).data = img4.data :=
  ⟨⟨by decide, by decide, by decide, by decide, by decide, by decide, by decide⟩,
   zfbv_C10_identity img4 (by decide) (by decide) (by decide) (by decide) (by decide)
     (by decide) (by decide)⟩

end ClaimC10
